import Mathlib

/-!
# conimg: pixelation of an image by square averaging

A shallow embedding of `src/main.go` and a verification of its specification.

Conventions of the embedding

* Go `int` values are `Int` (the 64-bit wrap-around is not modelled: image
  coordinates are far below `2^63`); Go `uint32` values are `Nat` reduced with
  `u32` after every addition and conversion; Go `uint8` values are `Fin 256`.
* The image buffer `*image.RGBA` with bounds `(0,0)-(w,h)` is a width, a height
  and a pixel map; `Image.At` returns the zero colour outside the bounds, as
  `(*image.RGBA).At` does.
* `log.Fatalln` and a run-time panic end the run: functions that can reach one
  return `Except Err _`.
* A `for` loop with a variable stride need not terminate, so `forLoop` takes a
  budget (`fuel`) of iterations and reports `Err.outOfFuel` when it is used up.
-/

namespace Conimg

/-! ## Outcomes -/

/-- Ways a run stops without a result. -/
inductive Err where
  /-- Call of `log.Fatalln msg`: the process exits with the diagnostic `msg`. -/
  | fatal (msg : String)
  /-- Run-time panic "integer divide by zero". -/
  | divideByZero
  /-- The iteration budget of the model is used up (the loop may not terminate). -/
  | outOfFuel
  deriving DecidableEq, Repr

deriving instance DecidableEq for Except

/-! ## The parts of Go's `image`, `image/color` and `image/draw` that the program uses -/

/-- Conversion to `uint32`. -/
def u32 (n : Nat) : Nat := n % 4294967296

/-- Conversion to `uint8`. -/
def uint8 (n : Nat) : Fin 256 := ⟨n % 256, Nat.mod_lt _ (by decide)⟩

/-- Go's `color.RGBA`: four 8-bit channels. -/
structure RGBA where
  R : Fin 256
  G : Fin 256
  B : Fin 256
  A : Fin 256
  deriving DecidableEq, Repr

/-- Go's `color.NRGBA`: four 8-bit channels, colour not premultiplied by alpha. -/
structure NRGBA where
  R : Fin 256
  G : Fin 256
  B : Fin 256
  A : Fin 256
  deriving DecidableEq, Repr

/-- The 16-bit channel values of a colour, as returned by the `RGBA()` method. -/
structure Channels where
  r : Nat
  g : Nat
  b : Nat
  a : Nat
  deriving DecidableEq, Repr

/-- Widening of an 8-bit value to 16 bits: `r = uint32(c); r |= r << 8`. -/
def widen (c : Fin 256) : Nat := c.val ||| (c.val <<< 8)

/-- The method `RGBA()` of `color.RGBA`. -/
def RGBA.channels (c : RGBA) : Channels :=
  ⟨widen c.R, widen c.G, widen c.B, widen c.A⟩

/-- The method `RGBA()` of `color.NRGBA`: widen, multiply by alpha, divide by `0xff`. -/
def NRGBA.channels (c : NRGBA) : Channels :=
  ⟨u32 (widen c.R * c.A.val) / 0xff, u32 (widen c.G * c.A.val) / 0xff,
   u32 (widen c.B * c.A.val) / 0xff, widen c.A⟩

/-- Go's `image.Rectangle`: the points `(x, y)` with `minX ≤ x < maxX` and `minY ≤ y < maxY`. -/
structure Rectangle where
  minX : Int
  minY : Int
  maxX : Int
  maxY : Int
  deriving DecidableEq, Repr

/-- Go's `image.Rect(x0, y0, x1, y1)`: the coordinates are put in order. -/
def Rect (x0 y0 x1 y1 : Int) : Rectangle :=
  let (x0, x1) := if x0 > x1 then (x1, x0) else (x0, x1)
  let (y0, y1) := if y0 > y1 then (y1, y0) else (y0, y1)
  ⟨x0, y0, x1, y1⟩

/-- Go's `Rectangle.Empty`. -/
def Rectangle.Empty (r : Rectangle) : Bool :=
  decide (r.minX ≥ r.maxX) || decide (r.minY ≥ r.maxY)

/-- Go's `Rectangle.Intersect`; an empty intersection is the zero rectangle. -/
def Rectangle.Intersect (r s : Rectangle) : Rectangle :=
  let r : Rectangle := if r.minX < s.minX then { r with minX := s.minX } else r
  let r : Rectangle := if r.minY < s.minY then { r with minY := s.minY } else r
  let r : Rectangle := if r.maxX > s.maxX then { r with maxX := s.maxX } else r
  let r : Rectangle := if r.maxY > s.maxY then { r with maxY := s.maxY } else r
  if r.Empty then ⟨0, 0, 0, 0⟩ else r

/-- Go's `Point.In`: the point `(x, y)` lies in `r`. -/
def Rectangle.contains (r : Rectangle) (x y : Int) : Bool :=
  decide (r.minX ≤ x) && decide (x < r.maxX) && decide (r.minY ≤ y) && decide (y < r.maxY)

/-- The buffer `*image.RGBA` of bounds `(0,0)-(w,h)`; `pix x y` is meaningful inside the
bounds only. -/
structure Image where
  w : Int
  h : Int
  pix : Int → Int → RGBA

/-- The `Bounds()` of the buffer. -/
def Image.Bounds (img : Image) : Rectangle := ⟨0, 0, img.w, img.h⟩

/-- Go's `(*image.RGBA).At`: the stored pixel, or the zero colour outside the bounds. -/
def Image.At (img : Image) (x y : Int) : RGBA :=
  if img.Bounds.contains x y then img.pix x y else ⟨0, 0, 0, 0⟩

/-- Go's `draw.Draw(dst, r, &image.Uniform{c}, sp, draw.Src)` on an RGBA destination: `r` is
clipped to the destination's bounds and every pixel of the clipped rectangle is set to the
high bytes of `c.RGBA()` (`drawFillSrc`). The clip against the bounds of `image.Uniform`
(`±10^9`) is left out. -/
def drawUniformSrc (dst : Image) (r : Rectangle) (c : NRGBA) : Image :=
  let s := c.channels
  let fill : RGBA := ⟨uint8 (s.r >>> 8), uint8 (s.g >>> 8), uint8 (s.b >>> 8), uint8 (s.a >>> 8)⟩
  let r := r.Intersect dst.Bounds
  { dst with pix := fun x y => if r.contains x y then fill else dst.pix x y }

/-! ## Loops -/

/-- The values of `for x := lo; x < hi; x++`. -/
def intRange (lo hi : Int) : List Int :=
  (List.range (hi - lo).toNat).map (fun (k : Nat) => lo + (k : Int))

/-- The loop `for i := i; i < stop; i = i + step { s = body i s }`, with at most `fuel`
iterations. -/
def forLoop {σ : Type} (fuel : Nat) (i stop step : Int) (body : Int → σ → Except Err σ)
    (s : σ) : Except Err σ :=
  match fuel with
  | 0 => if i < stop then .error .outOfFuel else .ok s
  | fuel + 1 =>
    if i < stop then
      match body i s with
      | .ok s' => forLoop fuel (i + step) stop step body s'
      | .error e => .error e
    else .ok s

/-! ## The program -/

/-- Source: `const convertRGB = 0x101`. -/
def convertRGB : Nat := 0x101

/-- Source: `const alpha = 255`. -/
def alpha : Fin 256 := 255

/-- The three `uint32` accumulators of `averageColor`. -/
structure Buckets where
  red : Nat
  green : Nat
  blue : Nat
  deriving DecidableEq, Repr

/-- The body of the inner loop of `averageColor`: the channels of pixel `(x, y)` are added
to the buckets, in `uint32` arithmetic. -/
def accumulate (img : Image) (x : Int) (acc : Buckets) (y : Int) : Buckets :=
  let c := (img.At x y).channels
  ⟨u32 (acc.red + c.r), u32 (acc.green + c.g), u32 (acc.blue + c.b)⟩

/-- The two nested loops of `averageColor`. -/
def sumBuckets (startX startY sizeX sizeY : Int) (img : Image) : Buckets :=
  (intRange startX sizeX).foldl
    (fun acc x => (intRange startY sizeY).foldl (accumulate img x) acc) ⟨0, 0, 0⟩

/-- Source: `averageColor`. The division by `area` panics when `area` is zero. -/
def averageColor (startX startY sizeX sizeY : Int) (img : Image) : Except Err NRGBA :=
  let area : Nat := (((sizeX - startX) * (sizeY - startY)) % 4294967296).toNat
  let buckets := sumBuckets startX startY sizeX sizeY img
  if area = 0 then .error .divideByZero
  else
    let redBucket := buckets.red / area
    let greenBucket := buckets.green / area
    let blueBucket := buckets.blue / area
    .ok ⟨uint8 (redBucket / convertRGB), uint8 (greenBucket / convertRGB),
         uint8 (blueBucket / convertRGB), alpha⟩

/-- The body of the inner loop of `processImage`: one square is averaged and overwritten. -/
def squareStep (squareSize x y : Int) (res : Image) : Except Err Image :=
  let temp := Rect x y (x + squareSize) (y + squareSize)
  match averageColor x y (x + squareSize) (y + squareSize) res with
  | .ok color => .ok (drawUniformSrc res temp color)
  | .error e => .error e

/-- Source: `processImage`. -/
def processImage (fuel : Nat) (startX startY sizeX sizeY squareSize goroutineIncrement : Int)
    (res : Image) : Except Err Image :=
  forLoop fuel startX sizeX goroutineIncrement
    (fun x res => forLoop fuel startY sizeY squareSize (fun y res => squareStep squareSize x y res) res)
    res

/-- The loops of `processImage` with the body replaced by a record of the square start
`(x, y)`: the squares the call visits, in order. -/
def visitedSquares (fuel : Nat) (startX startY sizeX sizeY squareSize goroutineIncrement : Int) :
    Except Err (List (Int × Int)) :=
  forLoop fuel startX sizeX goroutineIncrement
    (fun x acc => forLoop fuel startY sizeY squareSize (fun y acc => .ok (acc ++ [(x, y)])) acc)
    []

/-- Source: `commandLineErrorCheck`. -/
def commandLineErrorCheck (sizeX sizeY squareSize : Int) (processingMode : String) :
    Except Err Unit :=
  if squareSize > sizeX ∨ squareSize > sizeY ∨ squareSize ≤ 0 then
    .error (.fatal "Out of bounds or non-positive square size. Please change the size of the square")
  else if processingMode ≠ "M" ∧ processingMode ≠ "S" then
    .error (.fatal "Wrong processing mode. Please enter S for single or M for multi-threaded mode.")
  else .ok ()

/-- The number of goroutines: `1`, or `int(math.Ceil(float64(sizeX) / float64(squareSize)))`
in mode `"M"`. The floating-point quotient is modelled by the integer ceiling, with which it
agrees for a positive `squareSize` and sizes below `2^53`. -/
def goroutineCount (sizeX squareSize : Int) (processingMode : String) : Int :=
  if processingMode = "M" then (sizeX + squareSize - 1) / squareSize else 1

/-- Source: `main`, from the decoded image on. The goroutines are run one after the other, in
the order of their index. -/
def main (fuel : Nat) (img : Image) (squareSize : Int) (processingMode : String) :
    Except Err Image :=
  let sizeX := img.w
  let sizeY := img.h
  match commandLineErrorCheck sizeX sizeY squareSize processingMode with
  | .error e => .error e
  | .ok () =>
    let res : Image := ⟨sizeX, sizeY, fun x y => img.At x y⟩
    let count := goroutineCount sizeX squareSize processingMode
    let goroutineIncrement := count * squareSize
    forLoop fuel 0 count 1
      (fun i res => processImage fuel (i * squareSize) 0 sizeX sizeY squareSize goroutineIncrement res)
      res

/-! ## Loops as lists of iterations -/

/-- Sequential execution of `body` on the elements of a list. -/
def iterate {α σ : Type} (body : α → σ → Except Err σ) : List α → σ → Except Err σ
  | [], s => .ok s
  | a :: l, s =>
    match body a s with
    | .ok s' => iterate body l s'
    | .error e => .error e

/-- The values the loop variable of `forLoop` takes. -/
def loopIndices : Nat → Int → Int → Int → List Int
  | 0, _, _, _ => []
  | fuel + 1, i, stop, step =>
    if i < stop then i :: loopIndices fuel (i + step) stop step else []

/-- The square steps of a list of square starts, executed one after the other. -/
def runSquares (squareSize : Int) (l : List (Int × Int)) (res : Image) : Except Err Image :=
  iterate (fun p res => squareStep squareSize p.1 p.2 res) l res

/-- All pairs `(x, y)`, column by column. -/
def grid (xs ys : List Int) : List (Int × Int) :=
  xs.flatMap (fun x => ys.map (fun y => (x, y)))

/-- Brute-force sum of `f x y` over the pixels `x0 ≤ x < x1`, `y0 ≤ y < y1`. -/
def regionSum (f : Int → Int → Nat) (x0 y0 x1 y1 : Int) : Nat :=
  ((intRange x0 x1).map (fun x => ((intRange y0 y1).map (fun y => f x y)).sum)).sum

/-- The pixel `(px, py)` lies in the square of side `squareSize` that starts at `(x, y)`. -/
def inSquare (squareSize x y px py : Int) : Prop :=
  x ≤ px ∧ px < x + squareSize ∧ y ≤ py ∧ py < y + squareSize

/-- The pixel `(px, py)` lies inside the bounds of the buffer. -/
def Image.inBounds (img : Image) (px py : Int) : Prop :=
  0 ≤ px ∧ px < img.w ∧ 0 ≤ py ∧ py < img.h

/-- The image of width `w` and height `h` that has the colour `c` everywhere. -/
def uniformImage (w h : Int) (c : RGBA) : Image := ⟨w, h, fun _ _ => c⟩

/-- The number of pixels of the region `x0 ≤ x < x1`, `y0 ≤ y < y1`. -/
def pixelCount (x0 y0 x1 y1 : Int) : Nat := ((x1 - x0) * (y1 - y0)).toNat

/-- Brute-force floor mean of `f x y` over the region `x0 ≤ x < x1`, `y0 ≤ y < y1`. -/
def floorMean (f : Int → Int → Nat) (x0 y0 x1 y1 : Int) : Nat :=
  regionSum f x0 y0 x1 y1 / pixelCount x0 y0 x1 y1

/-- The pixel count of `averageColor`, `uint32((sizeX - startX) * (sizeY - startY))`. -/
def area (startX startY sizeX sizeY : Int) : Nat :=
  (((sizeX - startX) * (sizeY - startY)) % 4294967296).toNat

instance (squareSize x y px py : Int) : Decidable (inSquare squareSize x y px py) := by
  unfold inSquare; infer_instance

instance (img : Image) (px py : Int) : Decidable (img.inBounds px py) := by
  unfold Image.inBounds; infer_instance

/-- The buffer with the pixels of the square at `(x, y)` that lie inside the bounds set to `c`. -/
def paint (squareSize x y : Int) (c : RGBA) (img : Image) : Image :=
  { img with pix := fun px py =>
      if inSquare squareSize x y px py ∧ img.inBounds px py then c else img.pix px py }

/-- The colour `processImage` gives to the square at `(x, y)`: per channel, the `uint32` sum of
the widened values of `At` over `x ≤ px < x + squareSize`, `y ≤ py < y + squareSize`, divided
by the area and by `convertRGB`. -/
def squareColor (squareSize x y : Int) (img : Image) : RGBA :=
  ⟨uint8 (u32 (regionSum (fun px py => widen (img.At px py).R) x y (x + squareSize) (y + squareSize))
      / area x y (x + squareSize) (y + squareSize) / convertRGB),
   uint8 (u32 (regionSum (fun px py => widen (img.At px py).G) x y (x + squareSize) (y + squareSize))
      / area x y (x + squareSize) (y + squareSize) / convertRGB),
   uint8 (u32 (regionSum (fun px py => widen (img.At px py).B) x y (x + squareSize) (y + squareSize))
      / area x y (x + squareSize) (y + squareSize) / convertRGB),
   255⟩

/-- The squares of side `squareSize` at `p` and at `q` have no pixel in common. -/
def SquaresDisjoint (squareSize : Int) (p q : Int × Int) : Prop :=
  ∀ px py, ¬ (inSquare squareSize p.1 p.2 px py ∧ inSquare squareSize q.1 q.2 px py)

/-- Worker `i` of `count` workers, running
`processImage(i*squareSize, 0, sizeX, sizeY, squareSize, count*squareSize, res)`, visits the
square start `(x, y)`. -/
def Visits (fuel : Nat) (sizeX sizeY squareSize count i x y : Int) : Prop :=
  ∃ l, visitedSquares fuel (i * squareSize) 0 sizeX sizeY squareSize (count * squareSize) = .ok l ∧
    (x, y) ∈ l

/-- Every pixel of the image lies in the square of exactly one pair of a worker and a square
start the worker visits. -/
def CoveredOnce (fuel : Nat) (sizeX sizeY squareSize count : Int) : Prop :=
  ∀ px py, 0 ≤ px → px < sizeX → 0 ≤ py → py < sizeY →
    ∃! t : Int × Int × Int, 0 ≤ t.1 ∧ t.1 < count ∧
      Visits fuel sizeX sizeY squareSize count t.1 t.2.1 t.2.2 ∧
      inSquare squareSize t.2.1 t.2.2 px py

/-- Every region the Tiler hands to `averageColor` has a non-zero pixel count
`uint32((x1-x0)*(y1-y0))`, and `averageColor` returns a colour for it (no division by zero). -/
def RegionsNonEmpty (fuel : Nat) (sizeX sizeY squareSize : Int) (processingMode : String) : Prop :=
  ∀ i x y, Visits fuel sizeX sizeY squareSize (goroutineCount sizeX squareSize processingMode) i x y →
    area x y (x + squareSize) (y + squareSize) ≠ 0 ∧
    ∀ res : Image, ∃ c, averageColor x y (x + squareSize) (y + squareSize) res = .ok c

/-- The square starts that `count` workers visit together: the loop of `main` over the workers,
with the launch of worker `i` replaced by a record of the squares its `processImage` call
visits. -/
def multiVisited (fuel : Nat) (sizeX sizeY squareSize count : Int) :
    Except Err (List (Int × Int)) :=
  forLoop fuel 0 count 1
    (fun i acc =>
      match visitedSquares fuel (i * squareSize) 0 sizeX sizeY squareSize (count * squareSize) with
      | .ok l => .ok (acc ++ l)
      | .error e => .error e)
    []

/-- The largest width and height of an image the program can open: `main.go` imports only
`image/jpeg`, so `image.Decode` knows the JPEG decoder alone, and a JPEG frame header stores
the width and the height in 16 bits each. -/
def maxDimension : Int := 65535

/-! ## Theorems -/

theorem iterate_append {α σ : Type} (body : α → σ → Except Err σ) (l₁ l₂ : List α) (s : σ) :
    iterate body (l₁ ++ l₂) s =
      match iterate body l₁ s with
      | .ok s' => iterate body l₂ s'
      | .error e => .error e := by
  induction l₁ generalizing s with
  | nil => rfl
  | cons a l ih =>
    simp only [List.cons_append, iterate]
    cases body a s with
    | error e => rfl
    | ok s' => exact ih s'

theorem forLoop_eq_iterate {σ : Type} (fuel : Nat) (i stop step : Int)
    (body : Int → σ → Except Err σ) (s : σ) (hstep : 0 < step) (hfuel : stop - i ≤ fuel) :
    forLoop fuel i stop step body s = iterate body (loopIndices fuel i stop step) s := by
  induction fuel generalizing i s with
  | zero =>
    have : ¬ i < stop := by simp at hfuel; omega
    simp [forLoop, loopIndices, iterate, this]
  | succ n ih =>
    unfold forLoop loopIndices
    by_cases h : i < stop
    · simp only [h, if_true, iterate]
      cases body i s with
      | error e => rfl
      | ok s' => exact ih (i + step) s' (by push_cast at hfuel; omega)
    · simp [h, iterate]

theorem mem_loopIndices (fuel : Nat) (i stop step x : Int) (hstep : 0 < step)
    (hfuel : stop - i ≤ fuel) :
    x ∈ loopIndices fuel i stop step ↔ ∃ k : Nat, x = i + k * step ∧ x < stop := by
  induction fuel generalizing i with
  | zero =>
    simp only [loopIndices, List.not_mem_nil, false_iff]
    rintro ⟨k, hk, hlt⟩
    have : 0 ≤ (k : Int) * step := by positivity
    simp at hfuel; omega
  | succ n ih =>
    unfold loopIndices
    by_cases h : i < stop
    · simp only [h, if_true, List.mem_cons]
      rw [ih (i + step) (by push_cast at hfuel; omega)]
      constructor
      · rintro (rfl | ⟨k, hk, hlt⟩)
        · exact ⟨0, by simp, h⟩
        · exact ⟨k + 1, by push_cast; rw [hk]; ring, hlt⟩
      · rintro ⟨k, hk, hlt⟩
        cases k with
        | zero => left; simpa using hk
        | succ k => right; exact ⟨k, by push_cast at hk; rw [hk]; ring, hlt⟩
    · simp only [h, if_false, List.not_mem_nil, false_iff]
      rintro ⟨k, hk, hlt⟩
      have : 0 ≤ (k : Int) * step := by positivity
      omega

theorem loopIndices_ge (fuel : Nat) (i stop step x : Int) (hstep : 0 < step)
    (hx : x ∈ loopIndices fuel i stop step) : i ≤ x := by
  induction fuel generalizing i with
  | zero => simp [loopIndices] at hx
  | succ n ih =>
    unfold loopIndices at hx
    by_cases h : i < stop
    · simp only [h, if_true, List.mem_cons] at hx
      rcases hx with rfl | hx
      · exact le_refl _
      · have := ih (i + step) hx; omega
    · simp [h] at hx

theorem loopIndices_pairwise (fuel : Nat) (i stop step : Int) (hstep : 0 < step) :
    (loopIndices fuel i stop step).Pairwise (fun a b => a < b) := by
  induction fuel generalizing i with
  | zero => simp [loopIndices]
  | succ n ih =>
    unfold loopIndices
    by_cases h : i < stop
    · simp only [h, if_true, List.pairwise_cons]
      refine ⟨fun b hb => ?_, ih (i + step)⟩
      have := loopIndices_ge n (i + step) stop step b hstep hb
      omega
    · simp [h]

/-! ### The accumulators of `averageColor` -/

theorem u32_add_u32 (a b : Nat) : u32 (u32 a + b) = u32 (a + b) := by
  unfold u32; omega

theorem foldl_accumulate (img : Image) (x : Int) (ys : List Int) (a b c : Nat) :
    ys.foldl (accumulate img x) ⟨u32 a, u32 b, u32 c⟩ =
      ⟨u32 (a + (ys.map (fun y => widen (img.At x y).R)).sum),
       u32 (b + (ys.map (fun y => widen (img.At x y).G)).sum),
       u32 (c + (ys.map (fun y => widen (img.At x y).B)).sum)⟩ := by
  induction ys generalizing a b c with
  | nil => simp
  | cons y ys ih =>
    simp only [List.foldl_cons, accumulate, RGBA.channels, u32_add_u32, List.map_cons,
      List.sum_cons]
    rw [ih]
    simp only [Nat.add_assoc]

theorem foldl_columns (img : Image) (xs ys : List Int) (a b c : Nat) :
    xs.foldl (fun acc x => ys.foldl (accumulate img x) acc) ⟨u32 a, u32 b, u32 c⟩ =
      ⟨u32 (a + (xs.map (fun x => (ys.map (fun y => widen (img.At x y).R)).sum)).sum),
       u32 (b + (xs.map (fun x => (ys.map (fun y => widen (img.At x y).G)).sum)).sum),
       u32 (c + (xs.map (fun x => (ys.map (fun y => widen (img.At x y).B)).sum)).sum)⟩ := by
  induction xs generalizing a b c with
  | nil => simp
  | cons x xs ih =>
    simp only [List.foldl_cons, foldl_accumulate, List.map_cons, List.sum_cons]
    rw [ih]
    simp only [Nat.add_assoc]

theorem sumBuckets_eq (img : Image) (x0 y0 x1 y1 : Int) :
    sumBuckets x0 y0 x1 y1 img =
      ⟨u32 (regionSum (fun x y => widen (img.At x y).R) x0 y0 x1 y1),
       u32 (regionSum (fun x y => widen (img.At x y).G) x0 y0 x1 y1),
       u32 (regionSum (fun x y => widen (img.At x y).B) x0 y0 x1 y1)⟩ := by
  have h := foldl_columns img (intRange x0 x1) (intRange y0 y1) 0 0 0
  simp only [Nat.zero_add] at h
  exact h

/-! ### Sums over a region -/

theorem mem_intRange (lo hi x : Int) : x ∈ intRange lo hi ↔ lo ≤ x ∧ x < hi := by
  unfold intRange
  simp only [List.mem_map, List.mem_range]
  constructor
  · rintro ⟨k, hk, rfl⟩
    omega
  · rintro ⟨h1, h2⟩
    exact ⟨(x - lo).toNat, by omega, by omega⟩

theorem length_intRange (lo hi : Int) : (intRange lo hi).length = (hi - lo).toNat := by
  simp [intRange]

set_option maxRecDepth 100000 in
theorem widen_eq (c : Fin 256) : widen c = 257 * c.val := by
  revert c
  unfold widen
  decide

theorem sum_map_congr {α : Type} (l : List α) (f g : α → Nat) (h : ∀ a ∈ l, f a = g a) :
    (l.map f).sum = (l.map g).sum := by
  rw [List.map_congr_left h]

theorem regionSum_congr (f g : Int → Int → Nat) (x0 y0 x1 y1 : Int)
    (h : ∀ x y, x0 ≤ x → x < x1 → y0 ≤ y → y < y1 → f x y = g x y) :
    regionSum f x0 y0 x1 y1 = regionSum g x0 y0 x1 y1 := by
  unfold regionSum
  apply sum_map_congr
  intro x hx
  apply sum_map_congr
  intro y hy
  rw [mem_intRange] at hx hy
  exact h x y hx.1 hx.2 hy.1 hy.2

theorem sum_map_mul_left (l : List Int) (f : Int → Nat) (c : Nat) :
    (l.map (fun a => c * f a)).sum = c * (l.map f).sum := by
  induction l with
  | nil => simp
  | cons a l ih => simp [ih, Nat.mul_add]

theorem regionSum_mul (f : Int → Int → Nat) (c : Nat) (x0 y0 x1 y1 : Int) :
    regionSum (fun x y => c * f x y) x0 y0 x1 y1 = c * regionSum f x0 y0 x1 y1 := by
  unfold regionSum
  simp only [sum_map_mul_left]

theorem sum_map_le (l : List Int) (f : Int → Nat) (b : Nat) (h : ∀ a ∈ l, f a ≤ b) :
    (l.map f).sum ≤ l.length * b := by
  induction l with
  | nil => simp
  | cons a l ih =>
    simp only [List.map_cons, List.sum_cons, List.length_cons]
    have h1 := h a (List.mem_cons_self a l)
    have h2 := ih (fun x hx => h x (List.mem_cons_of_mem a hx))
    rw [Nat.add_mul]
    omega

theorem regionSum_le (f : Int → Int → Nat) (b : Nat) (x0 y0 x1 y1 : Int)
    (h : ∀ x y, f x y ≤ b) :
    regionSum f x0 y0 x1 y1 ≤ (x1 - x0).toNat * (y1 - y0).toNat * b := by
  unfold regionSum
  have h1 : ∀ x ∈ intRange x0 x1,
      ((intRange y0 y1).map (fun y => f x y)).sum ≤ (y1 - y0).toNat * b := by
    intro x _
    have := sum_map_le (intRange y0 y1) (fun y => f x y) b (fun y _ => h x y)
    rwa [length_intRange] at this
  have h2 := sum_map_le (intRange x0 x1) _ _ h1
  rw [length_intRange] at h2
  rw [Nat.mul_assoc]
  exact h2

theorem sum_map_const (l : List Int) (c : Nat) : (l.map (fun _ => c)).sum = l.length * c := by
  induction l with
  | nil => simp
  | cons a l ih => simp [ih, Nat.add_mul]; omega

theorem regionSum_const (c : Nat) (x0 y0 x1 y1 : Int) :
    regionSum (fun _ _ => c) x0 y0 x1 y1 = (x1 - x0).toNat * (y1 - y0).toNat * c := by
  unfold regionSum
  rw [sum_map_const, sum_map_const, length_intRange, length_intRange, Nat.mul_assoc]

theorem regionSum_widen (f : Int → Int → Fin 256) (x0 y0 x1 y1 : Int) :
    regionSum (fun x y => widen (f x y)) x0 y0 x1 y1 =
      257 * regionSum (fun x y => (f x y).val) x0 y0 x1 y1 := by
  rw [← regionSum_mul]
  apply regionSum_congr
  intro x y _ _ _ _
  exact widen_eq _

/-! ### `averageColor` -/

theorem averageColor_eq (img : Image) (x0 y0 x1 y1 : Int) (h : area x0 y0 x1 y1 ≠ 0) :
    averageColor x0 y0 x1 y1 img = .ok
      ⟨uint8 (u32 (regionSum (fun x y => widen (img.At x y).R) x0 y0 x1 y1)
          / area x0 y0 x1 y1 / convertRGB),
       uint8 (u32 (regionSum (fun x y => widen (img.At x y).G) x0 y0 x1 y1)
          / area x0 y0 x1 y1 / convertRGB),
       uint8 (u32 (regionSum (fun x y => widen (img.At x y).B) x0 y0 x1 y1)
          / area x0 y0 x1 y1 / convertRGB), alpha⟩ := by
  unfold averageColor
  unfold area at h
  simp only [h, if_false, sumBuckets_eq, area]

theorem averageColor_zero_area (img : Image) (x0 y0 x1 y1 : Int) (h : area x0 y0 x1 y1 = 0) :
    averageColor x0 y0 x1 y1 img = .error .divideByZero := by
  unfold averageColor
  unfold area at h
  simp only [h, if_true]

theorem pixelCount_eq (x0 y0 x1 y1 : Int) (hx : x0 ≤ x1) (hy : y0 ≤ y1) :
    pixelCount x0 y0 x1 y1 = (x1 - x0).toNat * (y1 - y0).toNat := by
  unfold pixelCount
  obtain ⟨a, ha⟩ := Int.eq_ofNat_of_zero_le (show 0 ≤ x1 - x0 by omega)
  obtain ⟨b, hb⟩ := Int.eq_ofNat_of_zero_le (show 0 ≤ y1 - y0 by omega)
  rw [ha, hb]
  have : (a : Int) * (b : Int) = ((a * b : Nat) : Int) := by push_cast; rfl
  rw [this, Int.toNat_ofNat]
  simp

theorem area_eq_pixelCount (x0 y0 x1 y1 : Int) (hx : x0 ≤ x1) (hy : y0 ≤ y1)
    (h : (x1 - x0) * (y1 - y0) < 4294967296) :
    area x0 y0 x1 y1 = pixelCount x0 y0 x1 y1 := by
  unfold area pixelCount
  have h0 : 0 ≤ (x1 - x0) * (y1 - y0) := mul_nonneg (by omega) (by omega)
  rw [Int.emod_eq_of_lt h0 h]

theorem mean_arith (s n : Nat) (hn : 0 < n) (hn' : n ≤ 65537) (hs : s ≤ n * 255) :
    u32 (257 * s) / n / convertRGB = s / n ∧
      (uint8 (u32 (257 * s) / n / convertRGB)).val = s / n := by
  have h1 : 257 * s < 4294967296 := by nlinarith
  have h2 : u32 (257 * s) = 257 * s := Nat.mod_eq_of_lt h1
  have h3 : 257 * s / n / convertRGB = s / n := by
    unfold convertRGB
    rw [Nat.div_div_eq_div_mul, Nat.mul_comm n 257, Nat.mul_div_mul_left _ _ (by decide)]
  have h4 : s / n < 256 := by
    rw [Nat.div_lt_iff_lt_mul hn]
    omega
  rw [h2, h3]
  exact ⟨rfl, Nat.mod_eq_of_lt h4⟩

theorem regionSum_channel_le (f : Int → Int → Fin 256) (x0 y0 x1 y1 : Int) (hx : x0 ≤ x1)
    (hy : y0 ≤ y1) :
    regionSum (fun x y => (f x y).val) x0 y0 x1 y1 ≤ pixelCount x0 y0 x1 y1 * 255 := by
  rw [pixelCount_eq x0 y0 x1 y1 hx hy]
  apply regionSum_le
  intro x y
  have := (f x y).isLt
  omega

theorem At_eq_pix (img : Image) (x y : Int) (h : img.inBounds x y) :
    img.At x y = img.pix x y := by
  obtain ⟨h1, h2, h3, h4⟩ := h
  simp [Image.At, Image.Bounds, Rectangle.contains, h1, h2, h3, h4]

theorem At_outside (img : Image) (x y : Int) (h : ¬ img.inBounds x y) :
    img.At x y = ⟨0, 0, 0, 0⟩ := by
  unfold Image.inBounds at h
  unfold Image.At Image.Bounds Rectangle.contains
  rw [if_neg]
  simp only [Bool.and_eq_true, decide_eq_true_eq, not_and]
  intro ⟨⟨h1, h2⟩, h3⟩ h4
  exact h ⟨h1, h2, h3, h4⟩

/-- The widened, summed and twice divided value of a channel is its floor mean, when the
sum cannot wrap. -/
theorem channel_mean (f : Int → Int → Fin 256) (x0 y0 x1 y1 : Int) (hx : x0 < x1) (hy : y0 < y1)
    (hcount : (x1 - x0) * (y1 - y0) ≤ 65537) :
    u32 (regionSum (fun x y => widen (f x y)) x0 y0 x1 y1) / area x0 y0 x1 y1 / convertRGB
        = floorMean (fun x y => (f x y).val) x0 y0 x1 y1 ∧
      (uint8 (u32 (regionSum (fun x y => widen (f x y)) x0 y0 x1 y1) / area x0 y0 x1 y1
        / convertRGB)).val = floorMean (fun x y => (f x y).val) x0 y0 x1 y1 := by
  have hpos : 0 < (x1 - x0) * (y1 - y0) := mul_pos (by omega) (by omega)
  have ha : area x0 y0 x1 y1 = pixelCount x0 y0 x1 y1 :=
    area_eq_pixelCount x0 y0 x1 y1 (by omega) (by omega) (by omega)
  have hn : 0 < pixelCount x0 y0 x1 y1 := by unfold pixelCount; omega
  have hn' : pixelCount x0 y0 x1 y1 ≤ 65537 := by unfold pixelCount; omega
  have hs := regionSum_channel_le f x0 y0 x1 y1 (by omega) (by omega)
  rw [regionSum_widen, ha]
  exact mean_arith _ _ hn hn' hs

/-- C5: for a non-empty region inside the buffer that holds at most 65537 pixels, `averageColor`
returns the colour whose red, green and blue are the floor means of the stored 8-bit values
over the region and whose alpha is 255; the widened `uint32` sum, floor-divided by the pixel
count and by `0x101`, agrees with the brute-force floor mean `floorMean`. The function returns
a colour only: the buffer it reads is not changed. -/
theorem averageColor_floor_mean (img : Image) (x0 y0 x1 y1 : Int)
    (hx : x0 < x1) (hy : y0 < y1)
    (hin : 0 ≤ x0 ∧ 0 ≤ y0 ∧ x1 ≤ img.w ∧ y1 ≤ img.h)
    (hcount : (x1 - x0) * (y1 - y0) ≤ 65537) :
    ∃ c : NRGBA, averageColor x0 y0 x1 y1 img = .ok c ∧
      c.R.val = floorMean (fun x y => (img.pix x y).R.val) x0 y0 x1 y1 ∧
      c.G.val = floorMean (fun x y => (img.pix x y).G.val) x0 y0 x1 y1 ∧
      c.B.val = floorMean (fun x y => (img.pix x y).B.val) x0 y0 x1 y1 ∧
      c.A = 255 ∧
      u32 (regionSum (fun x y => widen (img.pix x y).R) x0 y0 x1 y1)
          / pixelCount x0 y0 x1 y1 / 0x101
        = floorMean (fun x y => (img.pix x y).R.val) x0 y0 x1 y1 ∧
      u32 (regionSum (fun x y => widen (img.pix x y).G) x0 y0 x1 y1)
          / pixelCount x0 y0 x1 y1 / 0x101
        = floorMean (fun x y => (img.pix x y).G.val) x0 y0 x1 y1 ∧
      u32 (regionSum (fun x y => widen (img.pix x y).B) x0 y0 x1 y1)
          / pixelCount x0 y0 x1 y1 / 0x101
        = floorMean (fun x y => (img.pix x y).B.val) x0 y0 x1 y1 := by
  have hpos : 0 < (x1 - x0) * (y1 - y0) := mul_pos (by omega) (by omega)
  have ha : area x0 y0 x1 y1 = pixelCount x0 y0 x1 y1 :=
    area_eq_pixelCount x0 y0 x1 y1 (by omega) (by omega) (by omega)
  have hne : area x0 y0 x1 y1 ≠ 0 := by rw [ha]; unfold pixelCount; omega
  have hat : ∀ x y, x0 ≤ x → x < x1 → y0 ≤ y → y < y1 → img.At x y = img.pix x y := by
    intro x y h1 h2 h3 h4
    exact At_eq_pix img x y ⟨by omega, by omega, by omega, by omega⟩
  have hR : regionSum (fun x y => widen (img.At x y).R) x0 y0 x1 y1
      = regionSum (fun x y => widen (img.pix x y).R) x0 y0 x1 y1 :=
    regionSum_congr _ _ _ _ _ _ (fun x y h1 h2 h3 h4 => by rw [hat x y h1 h2 h3 h4])
  have hG : regionSum (fun x y => widen (img.At x y).G) x0 y0 x1 y1
      = regionSum (fun x y => widen (img.pix x y).G) x0 y0 x1 y1 :=
    regionSum_congr _ _ _ _ _ _ (fun x y h1 h2 h3 h4 => by rw [hat x y h1 h2 h3 h4])
  have hB : regionSum (fun x y => widen (img.At x y).B) x0 y0 x1 y1
      = regionSum (fun x y => widen (img.pix x y).B) x0 y0 x1 y1 :=
    regionSum_congr _ _ _ _ _ _ (fun x y h1 h2 h3 h4 => by rw [hat x y h1 h2 h3 h4])
  have mR := channel_mean (fun x y => (img.pix x y).R) x0 y0 x1 y1 hx hy hcount
  have mG := channel_mean (fun x y => (img.pix x y).G) x0 y0 x1 y1 hx hy hcount
  have mB := channel_mean (fun x y => (img.pix x y).B) x0 y0 x1 y1 hx hy hcount
  refine ⟨_, averageColor_eq img x0 y0 x1 y1 hne, ?_, ?_, ?_, rfl, ?_, ?_, ?_⟩
  · simp only [hR]; exact mR.2
  · simp only [hG]; exact mG.2
  · simp only [hB]; exact mB.2
  · rw [← ha]; exact mR.1
  · rw [← ha]; exact mG.1
  · rw [← ha]; exact mB.1

/-- Witness of C5: the region `(0,0)-(2,2)` of a 4×4 image. -/
theorem averageColor_floor_mean_witness :
    ∃ c : NRGBA, averageColor 0 0 2 2 (uniformImage 4 4 ⟨10, 20, 30, 255⟩) = .ok c ∧
      c.R.val = floorMean (fun x y => ((uniformImage 4 4 ⟨10, 20, 30, 255⟩).pix x y).R.val) 0 0 2 2 ∧
      c.G.val = floorMean (fun x y => ((uniformImage 4 4 ⟨10, 20, 30, 255⟩).pix x y).G.val) 0 0 2 2 ∧
      c.B.val = floorMean (fun x y => ((uniformImage 4 4 ⟨10, 20, 30, 255⟩).pix x y).B.val) 0 0 2 2 ∧
      c.A = 255 ∧
      u32 (regionSum (fun x y => widen ((uniformImage 4 4 ⟨10, 20, 30, 255⟩).pix x y).R) 0 0 2 2)
          / pixelCount 0 0 2 2 / 0x101
        = floorMean (fun x y => ((uniformImage 4 4 ⟨10, 20, 30, 255⟩).pix x y).R.val) 0 0 2 2 ∧
      u32 (regionSum (fun x y => widen ((uniformImage 4 4 ⟨10, 20, 30, 255⟩).pix x y).G) 0 0 2 2)
          / pixelCount 0 0 2 2 / 0x101
        = floorMean (fun x y => ((uniformImage 4 4 ⟨10, 20, 30, 255⟩).pix x y).G.val) 0 0 2 2 ∧
      u32 (regionSum (fun x y => widen ((uniformImage 4 4 ⟨10, 20, 30, 255⟩).pix x y).B) 0 0 2 2)
          / pixelCount 0 0 2 2 / 0x101
        = floorMean (fun x y => ((uniformImage 4 4 ⟨10, 20, 30, 255⟩).pix x y).B.val) 0 0 2 2 :=
  averageColor_floor_mean (uniformImage 4 4 ⟨10, 20, 30, 255⟩) 0 0 2 2 (by decide) (by decide)
    (by decide) (by decide)

/-! ### Uniform regions -/

theorem averageColor_uniform (img : Image) (x0 y0 x1 y1 : Int) (c : RGBA)
    (hu : ∀ x y, x0 ≤ x → x < x1 → y0 ≤ y → y < y1 → img.At x y = c)
    (ha : area x0 y0 x1 y1 ≠ 0) :
    averageColor x0 y0 x1 y1 img = .ok
      ⟨uint8 (u32 ((x1 - x0).toNat * (y1 - y0).toNat * widen c.R) / area x0 y0 x1 y1 / convertRGB),
       uint8 (u32 ((x1 - x0).toNat * (y1 - y0).toNat * widen c.G) / area x0 y0 x1 y1 / convertRGB),
       uint8 (u32 ((x1 - x0).toNat * (y1 - y0).toNat * widen c.B) / area x0 y0 x1 y1 / convertRGB),
       alpha⟩ := by
  rw [averageColor_eq img x0 y0 x1 y1 ha]
  have hR : regionSum (fun x y => widen (img.At x y).R) x0 y0 x1 y1
      = regionSum (fun _ _ => widen c.R) x0 y0 x1 y1 :=
    regionSum_congr _ _ _ _ _ _ (fun x y h1 h2 h3 h4 => by rw [hu x y h1 h2 h3 h4])
  have hG : regionSum (fun x y => widen (img.At x y).G) x0 y0 x1 y1
      = regionSum (fun _ _ => widen c.G) x0 y0 x1 y1 :=
    regionSum_congr _ _ _ _ _ _ (fun x y h1 h2 h3 h4 => by rw [hu x y h1 h2 h3 h4])
  have hB : regionSum (fun x y => widen (img.At x y).B) x0 y0 x1 y1
      = regionSum (fun _ _ => widen c.B) x0 y0 x1 y1 :=
    regionSum_congr _ _ _ _ _ _ (fun x y h1 h2 h3 h4 => by rw [hu x y h1 h2 h3 h4])
  rw [hR, hG, hB, regionSum_const, regionSum_const, regionSum_const]

/-- C6 (the code at the failing input): the region `(0,0)-(257,257)` of a white 257×257 image
holds 66049 pixels; the `uint32` sums wrap and `averageColor` returns `(1, 1, 1, 255)`, not
white. -/
theorem averageColor_uniform_wraps :
    averageColor 0 0 257 257 (uniformImage 257 257 ⟨255, 255, 255, 255⟩)
      = .ok ⟨1, 1, 1, 255⟩ := by
  rw [averageColor_uniform (uniformImage 257 257 ⟨255, 255, 255, 255⟩) 0 0 257 257
    ⟨255, 255, 255, 255⟩
    (fun x y h1 h2 h3 h4 => At_eq_pix _ x y ⟨h1, h2, h3, h4⟩) (by decide)]
  decide

/-! ### One square step -/

theorem contains_Intersect (r s : Rectangle) (x y : Int) :
    (r.Intersect s).contains x y = true ↔ r.contains x y = true ∧ s.contains x y = true := by
  obtain ⟨a, b, c, d⟩ := r
  obtain ⟨a', b', c', d'⟩ := s
  simp only [Rectangle.Intersect, Rectangle.Empty, Rectangle.contains]
  split_ifs <;> simp at * <;> omega

set_option maxRecDepth 100000 in
theorem fill_channel (c : Fin 256) :
    uint8 ((u32 (widen c * (255 : Fin 256).val) / 0xff) >>> 8) = c := by
  revert c
  unfold uint8 u32 widen
  decide

theorem drawUniformSrc_opaque (dst : Image) (r : Rectangle) (cr cg cb : Fin 256) :
    drawUniformSrc dst r ⟨cr, cg, cb, 255⟩ =
      { dst with pix := fun x y =>
          if (r.Intersect dst.Bounds).contains x y then ⟨cr, cg, cb, 255⟩ else dst.pix x y } := by
  unfold drawUniformSrc NRGBA.channels
  simp only [fill_channel]
  have : uint8 (widen 255 >>> 8) = 255 := by decide
  rw [this]

theorem squareStep_eq_paint (squareSize x y : Int) (res : Image) (hS : 0 < squareSize)
    (ha : area x y (x + squareSize) (y + squareSize) ≠ 0) :
    squareStep squareSize x y res = .ok (paint squareSize x y (squareColor squareSize x y res) res) := by
  unfold squareStep
  rw [averageColor_eq res x y (x + squareSize) (y + squareSize) ha]
  simp only [alpha, drawUniformSrc_opaque, paint, squareColor]
  congr 2
  funext px py
  have hiff : ((Rect x y (x + squareSize) (y + squareSize)).Intersect res.Bounds).contains px py
      = true ↔ inSquare squareSize x y px py ∧ res.inBounds px py := by
    rw [contains_Intersect]
    have h1 : ¬ x > x + squareSize := by omega
    have h2 : ¬ y > y + squareSize := by omega
    simp only [Rect, h1, h2, if_false, Rectangle.contains, Image.Bounds, inSquare,
      Image.inBounds, Bool.and_eq_true, decide_eq_true_eq]
    tauto
  by_cases h : inSquare squareSize x y px py ∧ res.inBounds px py
  · rw [if_pos (hiff.mpr h), if_pos h]
  · rw [if_neg (fun h' => h (hiff.mp h')), if_neg h]

theorem squareStep_zero_area (squareSize x y : Int) (res : Image)
    (ha : area x y (x + squareSize) (y + squareSize) = 0) :
    squareStep squareSize x y res = .error .divideByZero := by
  unfold squareStep
  rw [averageColor_zero_area res x y (x + squareSize) (y + squareSize) ha]

/-! ### Runs of square steps on disjoint squares -/

theorem area_square (squareSize x y : Int) :
    area x y (x + squareSize) (y + squareSize) = area 0 0 squareSize squareSize := by
  unfold area
  simp

theorem At_paint (squareSize x y : Int) (c : RGBA) (img : Image) (px py : Int) :
    (paint squareSize x y c img).At px py =
      if inSquare squareSize x y px py ∧ img.inBounds px py then c else img.At px py := by
  by_cases hb : img.inBounds px py
  · have hb' : (paint squareSize x y c img).inBounds px py := hb
    rw [At_eq_pix _ _ _ hb', At_eq_pix _ _ _ hb]
    rfl
  · have hb' : ¬ (paint squareSize x y c img).inBounds px py := hb
    rw [At_outside _ _ _ hb', At_outside _ _ _ hb, if_neg (fun h => hb h.2)]

theorem squareColor_congr (squareSize x y : Int) (img₁ img₂ : Image)
    (h : ∀ px py, inSquare squareSize x y px py → img₁.At px py = img₂.At px py) :
    squareColor squareSize x y img₁ = squareColor squareSize x y img₂ := by
  have hR : regionSum (fun px py => widen (img₁.At px py).R) x y (x + squareSize) (y + squareSize)
      = regionSum (fun px py => widen (img₂.At px py).R) x y (x + squareSize) (y + squareSize) :=
    regionSum_congr _ _ _ _ _ _ (fun px py h1 h2 h3 h4 => by rw [h px py ⟨h1, h2, h3, h4⟩])
  have hG : regionSum (fun px py => widen (img₁.At px py).G) x y (x + squareSize) (y + squareSize)
      = regionSum (fun px py => widen (img₂.At px py).G) x y (x + squareSize) (y + squareSize) :=
    regionSum_congr _ _ _ _ _ _ (fun px py h1 h2 h3 h4 => by rw [h px py ⟨h1, h2, h3, h4⟩])
  have hB : regionSum (fun px py => widen (img₁.At px py).B) x y (x + squareSize) (y + squareSize)
      = regionSum (fun px py => widen (img₂.At px py).B) x y (x + squareSize) (y + squareSize) :=
    regionSum_congr _ _ _ _ _ _ (fun px py h1 h2 h3 h4 => by rw [h px py ⟨h1, h2, h3, h4⟩])
  unfold squareColor
  rw [hR, hG, hB]

theorem runSquares_cons (squareSize : Int) (p : Int × Int) (l : List (Int × Int)) (img : Image) :
    runSquares squareSize (p :: l) img =
      match squareStep squareSize p.1 p.2 img with
      | .ok s => runSquares squareSize l s
      | .error e => .error e := by
  unfold runSquares
  rw [iterate]
  cases squareStep squareSize p.1 p.2 img <;> rfl

/-- A run of square steps on pairwise disjoint squares: every pixel of a visited square gets
the colour computed from the input buffer, every other pixel is unchanged. -/
theorem runSquares_spec (squareSize : Int) (l : List (Int × Int)) (img : Image)
    (hS : 0 < squareSize) (ha : area 0 0 squareSize squareSize ≠ 0)
    (hd : l.Pairwise (SquaresDisjoint squareSize)) :
    ∃ out : Image, runSquares squareSize l img = .ok out ∧ out.w = img.w ∧ out.h = img.h ∧
      ∀ px py,
        (∀ p ∈ l, inSquare squareSize p.1 p.2 px py → img.inBounds px py →
          out.pix px py = squareColor squareSize p.1 p.2 img) ∧
        ((∀ p ∈ l, ¬ (inSquare squareSize p.1 p.2 px py ∧ img.inBounds px py)) →
          out.pix px py = img.pix px py) := by
  induction l generalizing img with
  | nil =>
    exact ⟨img, rfl, rfl, rfl, fun px py => ⟨fun p hp => by simp at hp, fun _ => rfl⟩⟩
  | cons p l ih =>
    rw [List.pairwise_cons] at hd
    obtain ⟨hp, hl⟩ := hd
    have hstep := squareStep_eq_paint squareSize p.1 p.2 img hS
      (by rw [area_square]; exact ha)
    obtain ⟨out, hrun, hw, hh, hpix⟩ :=
      ih (paint squareSize p.1 p.2 (squareColor squareSize p.1 p.2 img) img) hl
    refine ⟨out, ?_, hw, hh, fun px py => ⟨?_, ?_⟩⟩
    · rw [runSquares_cons, hstep]
      exact hrun
    · intro q hq hin hb
      rw [List.mem_cons] at hq
      rcases hq with rfl | hq
      · have hnone : ∀ q' ∈ l, ¬ (inSquare squareSize q'.1 q'.2 px py ∧
            (paint squareSize q.1 q.2 (squareColor squareSize q.1 q.2 img) img).inBounds px py) :=
          fun q' hq' h => hp q' hq' px py ⟨hin, h.1⟩
        rw [(hpix px py).2 hnone]
        show (if inSquare squareSize q.1 q.2 px py ∧ img.inBounds px py then _ else _) = _
        rw [if_pos ⟨hin, hb⟩]
      · rw [(hpix px py).1 q hq hin hb]
        apply squareColor_congr
        intro px' py' hin'
        rw [At_paint, if_neg]
        intro h
        exact hp q hq px' py' ⟨h.1, hin'⟩
    · intro hnone
      have hnone' : ∀ q' ∈ l, ¬ (inSquare squareSize q'.1 q'.2 px py ∧
          (paint squareSize p.1 p.2 (squareColor squareSize p.1 p.2 img) img).inBounds px py) :=
        fun q' hq' h => hnone q' (List.mem_cons_of_mem p hq') h
      rw [(hpix px py).2 hnone']
      show (if inSquare squareSize p.1 p.2 px py ∧ img.inBounds px py then _ else _) = _
      rw [if_neg (hnone p (List.mem_cons_self p l))]

theorem runSquares_zero_area (squareSize : Int) (p : Int × Int) (l : List (Int × Int))
    (img : Image) (ha : area 0 0 squareSize squareSize = 0) :
    runSquares squareSize (p :: l) img = .error .divideByZero := by
  rw [runSquares_cons, squareStep_zero_area squareSize p.1 p.2 img
    (by rw [area_square]; exact ha)]

theorem squaresDisjoint_symm (squareSize : Int) {p q : Int × Int}
    (h : SquaresDisjoint squareSize p q) : SquaresDisjoint squareSize q p :=
  fun px py h' => h px py ⟨h'.2, h'.1⟩

/-- The result of a run of square steps on pairwise disjoint squares does not depend on the
order of the steps. -/
theorem runSquares_perm (squareSize : Int) (l l' : List (Int × Int)) (img : Image)
    (hS : 0 < squareSize) (hd : l.Pairwise (SquaresDisjoint squareSize)) (hperm : l.Perm l') :
    runSquares squareSize l img = runSquares squareSize l' img := by
  by_cases ha : area 0 0 squareSize squareSize = 0
  · cases l with
    | nil => rw [List.nil_perm] at hperm; rw [hperm]
    | cons p l =>
      cases l' with
      | nil => exact absurd hperm.length_eq (by simp)
      | cons p' l' =>
        rw [runSquares_zero_area _ _ _ _ ha, runSquares_zero_area _ _ _ _ ha]
  · have hd' : l'.Pairwise (SquaresDisjoint squareSize) :=
      hperm.pairwise hd (fun h => squaresDisjoint_symm squareSize h)
    obtain ⟨out, hrun, hw, hh, hpix⟩ := runSquares_spec squareSize l img hS ha hd
    obtain ⟨out', hrun', hw', hh', hpix'⟩ := runSquares_spec squareSize l' img hS ha hd'
    rw [hrun, hrun']
    congr 1
    obtain ⟨w, h, pix⟩ := out
    obtain ⟨w', h', pix'⟩ := out'
    simp only at hw hh hw' hh' hpix hpix'
    subst hw hh
    congr 1
    · exact hw'.symm
    · exact hh'.symm
    · funext px py
      by_cases hc : ∃ p ∈ l, inSquare squareSize p.1 p.2 px py ∧ img.inBounds px py
      · obtain ⟨p, hp, hin, hb⟩ := hc
        rw [(hpix px py).1 p hp hin hb, (hpix' px py).1 p (hperm.mem_iff.mp hp) hin hb]
      · have hn : ∀ p ∈ l, ¬ (inSquare squareSize p.1 p.2 px py ∧ img.inBounds px py) :=
          fun p hp h => hc ⟨p, hp, h⟩
        have hn' : ∀ p ∈ l', ¬ (inSquare squareSize p.1 p.2 px py ∧ img.inBounds px py) :=
          fun p hp h => hc ⟨p, hperm.mem_iff.mpr hp, h⟩
        rw [(hpix px py).2 hn, (hpix' px py).2 hn']

/-! ### The loops of `processImage` -/

theorem iterate_map {α β σ : Type} (f : α → β) (body : β → σ → Except Err σ) (l : List α)
    (s : σ) : iterate body (l.map f) s = iterate (fun a s => body (f a) s) l s := by
  induction l generalizing s with
  | nil => rfl
  | cons a l ih =>
    simp only [List.map_cons, iterate]
    cases body (f a) s with
    | error e => rfl
    | ok s' => exact ih s'

theorem grid_cons (x : Int) (xs ys : List Int) :
    grid (x :: xs) ys = ys.map (fun y => (x, y)) ++ grid xs ys := by
  simp [grid]

theorem iterate_grid {σ : Type} (g : Int → Int → σ → Except Err σ) (xs ys : List Int) (s : σ) :
    iterate (fun x s => iterate (fun y s => g x y s) ys s) xs s =
      iterate (fun p s => g p.1 p.2 s) (grid xs ys) s := by
  induction xs generalizing s with
  | nil => rfl
  | cons x xs ih =>
    rw [grid_cons, iterate_append, iterate_map, iterate]
    cases iterate (fun y s => g x y s) ys s with
    | error e => rfl
    | ok s' => exact ih s'

theorem mem_grid (xs ys : List Int) (x y : Int) : (x, y) ∈ grid xs ys ↔ x ∈ xs ∧ y ∈ ys := by
  simp only [grid, List.mem_flatMap, List.mem_map, Prod.mk.injEq]
  constructor
  · rintro ⟨a, ha, b, hb, rfl, rfl⟩
    exact ⟨ha, hb⟩
  · rintro ⟨hx, hy⟩
    exact ⟨x, hx, y, hy, rfl, rfl⟩

theorem nodup_grid (xs ys : List Int) (hx : xs.Nodup) (hy : ys.Nodup) : (grid xs ys).Nodup := by
  unfold grid
  rw [List.nodup_flatMap]
  refine ⟨fun x _ => hy.map (fun a b h => by simpa using h), ?_⟩
  refine hx.imp_of_mem ?_
  intro a b _ _ hab
  intro p h1' h2'
  simp only [List.mem_map] at h1' h2'
  obtain ⟨y1, _, rfl⟩ := h1'
  obtain ⟨y2, _, h⟩ := h2'
  simp only [Prod.mk.injEq] at h
  exact absurd h.1.symm hab

theorem processImage_eq_runSquares (fuel : Nat)
    (startX startY sizeX sizeY squareSize goroutineIncrement : Int) (res : Image)
    (hS : 0 < squareSize) (hinc : 0 < goroutineIncrement)
    (hfx : sizeX - startX ≤ fuel) (hfy : sizeY - startY ≤ fuel) :
    processImage fuel startX startY sizeX sizeY squareSize goroutineIncrement res =
      runSquares squareSize
        (grid (loopIndices fuel startX sizeX goroutineIncrement)
          (loopIndices fuel startY sizeY squareSize)) res := by
  unfold processImage runSquares
  rw [forLoop_eq_iterate fuel startX sizeX goroutineIncrement _ res hinc hfx]
  have hin : (fun x res => forLoop fuel startY sizeY squareSize
        (fun y res => squareStep squareSize x y res) res) =
      (fun x res => iterate (fun y res => squareStep squareSize x y res)
        (loopIndices fuel startY sizeY squareSize) res) := by
    funext x res
    exact forLoop_eq_iterate fuel startY sizeY squareSize _ res hS hfy
  rw [hin]
  exact iterate_grid (fun x y res => squareStep squareSize x y res) _ _ res

theorem iterate_record {α : Type} (l acc : List α) :
    iterate (fun p acc => Except.ok (acc ++ [p])) l acc = (.ok (acc ++ l) : Except Err (List α)) := by
  induction l generalizing acc with
  | nil => simp [iterate]
  | cons a l ih =>
    simp only [iterate]
    rw [ih]
    simp

theorem visitedSquares_eq (fuel : Nat)
    (startX startY sizeX sizeY squareSize goroutineIncrement : Int)
    (hS : 0 < squareSize) (hinc : 0 < goroutineIncrement)
    (hfx : sizeX - startX ≤ fuel) (hfy : sizeY - startY ≤ fuel) :
    visitedSquares fuel startX startY sizeX sizeY squareSize goroutineIncrement =
      .ok (grid (loopIndices fuel startX sizeX goroutineIncrement)
          (loopIndices fuel startY sizeY squareSize)) := by
  unfold visitedSquares
  rw [forLoop_eq_iterate fuel startX sizeX goroutineIncrement _ _ hinc hfx]
  have hin : (fun (x : Int) (acc : List (Int × Int)) => forLoop fuel startY sizeY squareSize
        (fun y acc => Except.ok (acc ++ [(x, y)])) acc) =
      (fun x acc => iterate (fun y acc => Except.ok (acc ++ [(x, y)]))
        (loopIndices fuel startY sizeY squareSize) acc) := by
    funext x acc
    exact forLoop_eq_iterate fuel startY sizeY squareSize _ acc hS hfy
  rw [hin]
  rw [iterate_grid (fun x y (acc : List (Int × Int)) => Except.ok (acc ++ [(x, y)]))]
  simpa using iterate_record (grid (loopIndices fuel startX sizeX goroutineIncrement)
    (loopIndices fuel startY sizeY squareSize)) []

/-! ### Coverage -/

theorem square_of_pixel (s px : Int) (hs : 0 < s) :
    px / s * s ≤ px ∧ px < px / s * s + s := by
  have h1 := Int.emod_add_ediv px s
  have h2 := Int.emod_nonneg px (show s ≠ 0 by omega)
  have h3 := Int.emod_lt_of_pos px hs
  have h4 : px / s * s = s * (px / s) := Int.mul_comm _ _
  constructor <;> omega

theorem square_unique (s m px : Int) (hs : 0 < s) (h1 : m * s ≤ px) (h2 : px < m * s + s) :
    m = px / s := by
  obtain ⟨h3, h4⟩ := square_of_pixel s px hs
  have h5 : m < px / s + 1 := by
    apply lt_of_mul_lt_mul_right (a := s) _ (le_of_lt hs)
    nlinarith
  have h6 : px / s < m + 1 := by
    apply lt_of_mul_lt_mul_right (a := s) _ (le_of_lt hs)
    nlinarith
  omega

theorem visits_iff (fuel : Nat) (sizeX sizeY squareSize count i x y : Int)
    (hS : 0 < squareSize) (hn : 1 ≤ count) (hi : 0 ≤ i)
    (hfx : sizeX ≤ fuel) (hfy : sizeY ≤ fuel) :
    Visits fuel sizeX sizeY squareSize count i x y ↔
      (∃ k : Nat, x = i * squareSize + k * (count * squareSize) ∧ x < sizeX) ∧
      (∃ j : Nat, y = 0 + j * squareSize ∧ y < sizeY) := by
  have hinc : 0 < count * squareSize := mul_pos (by omega) hS
  have hi' : 0 ≤ i * squareSize := mul_nonneg hi (le_of_lt hS)
  unfold Visits
  rw [visitedSquares_eq fuel (i * squareSize) 0 sizeX sizeY squareSize (count * squareSize)
    hS hinc (by omega) (by omega)]
  constructor
  · rintro ⟨l, hl, hmem⟩
    cases hl
    rw [mem_grid, mem_loopIndices _ _ _ _ _ hinc (by omega),
      mem_loopIndices _ _ _ _ _ hS (by omega)] at hmem
    exact hmem
  · intro h
    refine ⟨_, rfl, ?_⟩
    rw [mem_grid, mem_loopIndices _ _ _ _ _ hinc (by omega),
      mem_loopIndices _ _ _ _ _ hS (by omega)]
    exact h

/-- The stride `count * squareSize` gives an exact cover for every number of workers. -/
theorem coveredOnce_any_count (fuel : Nat) (sizeX sizeY squareSize count : Int)
    (hS : 0 < squareSize) (hn : 1 ≤ count) (hfx : sizeX ≤ fuel) (hfy : sizeY ≤ fuel) :
    CoveredOnce fuel sizeX sizeY squareSize count := by
  intro px py hpx0 hpx hpy0 hpy
  obtain ⟨hx1, hx2⟩ := square_of_pixel squareSize px hS
  obtain ⟨hy1, hy2⟩ := square_of_pixel squareSize py hS
  have ha0 : 0 ≤ px / squareSize := Int.ediv_nonneg hpx0 (le_of_lt hS)
  have hb0 : 0 ≤ py / squareSize := Int.ediv_nonneg hpy0 (le_of_lt hS)
  have hcn : count ≠ 0 := by omega
  have hm1 := Int.emod_add_ediv (px / squareSize) count
  have hm2 := Int.emod_nonneg (px / squareSize) hcn
  have hm3 := Int.emod_lt_of_pos (px / squareSize) (show 0 < count by omega)
  have hq0 : 0 ≤ px / squareSize / count := Int.ediv_nonneg ha0 (by omega)
  refine ⟨(px / squareSize % count, px / squareSize * squareSize, py / squareSize * squareSize),
    ⟨hm2, hm3, ?_, ⟨hx1, hx2, hy1, hy2⟩⟩, ?_⟩
  · rw [visits_iff fuel sizeX sizeY squareSize count _ _ _ hS hn hm2 hfx hfy]
    refine ⟨⟨(px / squareSize / count).toNat, ?_, lt_of_le_of_lt hx1 hpx⟩,
      ⟨(py / squareSize).toNat, ?_, lt_of_le_of_lt hy1 hpy⟩⟩
    · rw [Int.toNat_of_nonneg hq0]
      have : px / squareSize * squareSize
          = (px / squareSize % count + count * (px / squareSize / count)) * squareSize := by
        rw [hm1]
      rw [this]
      ring
    · rw [Int.toNat_of_nonneg hb0]
      ring
  · rintro ⟨i, x, y⟩ ⟨hi0, hin, hvis, hsq⟩
    simp only at hi0 hin hvis hsq
    rw [visits_iff fuel sizeX sizeY squareSize count _ _ _ hS hn hi0 hfx hfy] at hvis
    obtain ⟨⟨k, hk, _⟩, ⟨j, hj, _⟩⟩ := hvis
    obtain ⟨s1, s2, s3, s4⟩ := hsq
    have hxm : x = (i + k * count) * squareSize := by rw [hk]; ring
    have hym : y = (j : Int) * squareSize := by rw [hj]; ring
    have e1 : i + k * count = px / squareSize :=
      square_unique squareSize _ px hS (by rw [← hxm]; exact s1) (by rw [← hxm]; exact s2)
    have e2 : (j : Int) = py / squareSize :=
      square_unique squareSize _ py hS (by rw [← hym]; exact s3) (by rw [← hym]; exact s4)
    have e3 : px / squareSize % count = i := by
      rw [← e1, Int.add_mul_emod_self, Int.emod_eq_of_lt hi0 hin]
    rw [hxm, hym, e1, e2, e3]

theorem goroutineCount_multi (W S : Int) (hS : 0 < S) :
    (goroutineCount W S "M" - 1) * S < W ∧ W ≤ goroutineCount W S "M" * S := by
  have h : goroutineCount W S "M" = (W + S - 1) / S := by simp [goroutineCount]
  rw [h]
  obtain ⟨h1, h2⟩ := square_of_pixel S (W + S - 1) hS
  constructor
  · rw [Int.sub_mul]; omega
  · omega

theorem goroutineCount_pos (W S : Int) (mode : String) (hS : 0 < S) (hW : 1 ≤ W) :
    1 ≤ goroutineCount W S mode := by
  unfold goroutineCount
  split
  · rw [Int.le_ediv_iff_mul_le hS]; omega
  · exact le_refl 1

theorem nodup_loopIndices (fuel : Nat) (i stop step : Int) (hstep : 0 < step) :
    (loopIndices fuel i stop step).Nodup :=
  (loopIndices_pairwise fuel i stop step hstep).imp (fun h => ne_of_lt h)

/-- C3: for a validated square size and either mode, with `n = 1` workers in mode `"S"` and
`n = ceil(W/S)` workers in mode `"M"`, every worker's loops end and visit no square start
twice, and every pixel of the image lies in the square of exactly one pair of a worker and a
square start it visits: the squares cover the image with no gap and no overlap. The bounds
`S ≤ W`, `S ≤ H` and `1 ≤ H` of a valid input are not needed, nor is the mode token
restricted. -/
theorem squares_cover_image_once (fuel : Nat) (W H S : Int) (mode : String)
    (hW : 1 ≤ W) (hS : 0 < S) (hfx : W ≤ fuel) (hfy : H ≤ fuel) :
    (mode = "S" → goroutineCount W S mode = 1) ∧
    (mode = "M" → (goroutineCount W S mode - 1) * S < W ∧ W ≤ goroutineCount W S mode * S) ∧
    (∀ i, 0 ≤ i → i < goroutineCount W S mode →
      ∃ l, visitedSquares fuel (i * S) 0 W H S (goroutineCount W S mode * S) = .ok l ∧ l.Nodup) ∧
    CoveredOnce fuel W H S (goroutineCount W S mode) := by
  have hn := goroutineCount_pos W S mode hS hW
  refine ⟨?_, ?_, ?_, coveredOnce_any_count fuel W H S _ hS hn hfx hfy⟩
  · intro h; subst h; simp [goroutineCount]
  · intro h; subst h; exact goroutineCount_multi W S hS
  · intro i hi0 _
    have hinc : 0 < goroutineCount W S mode * S := mul_pos (by omega) hS
    have hi' : 0 ≤ i * S := mul_nonneg hi0 (le_of_lt hS)
    refine ⟨_, visitedSquares_eq fuel (i * S) 0 W H S _ hS hinc (by omega) (by omega), ?_⟩
    exact nodup_grid _ _ (nodup_loopIndices _ _ _ _ hinc) (nodup_loopIndices _ _ _ _ hS)

/-- Witness of C3: a 5×4 image with squares of side 2 in mode `"M"`. -/
theorem squares_cover_image_once_witness :
    ("M" = "S" → goroutineCount 5 2 "M" = 1) ∧
    ("M" = "M" → (goroutineCount 5 2 "M" - 1) * 2 < 5 ∧ 5 ≤ goroutineCount 5 2 "M" * 2) ∧
    (∀ i, 0 ≤ i → i < goroutineCount 5 2 "M" →
      ∃ l, visitedSquares 5 (i * 2) 0 5 4 2 (goroutineCount 5 2 "M" * 2) = .ok l ∧ l.Nodup) ∧
    CoveredOnce 5 5 4 2 (goroutineCount 5 2 "M") :=
  squares_cover_image_once 5 5 4 2 "M" (by decide) (by decide) (by decide) (by decide)

/-- C10 (refuted as stated): there are no sizes, valid square size and number of workers
`n ≥ 1`, different from `ceil(W/S)` or not, for which the stride `n * S` leaves a pixel in no
square or in more than one square. -/
theorem stride_never_breaks_cover :
    ¬ ∃ (fuel : Nat) (W H S n : Int), W ≤ fuel ∧ H ≤ fuel ∧ 1 ≤ W ∧ 1 ≤ H ∧ 0 < S ∧ S ≤ W ∧
      S ≤ H ∧ 1 ≤ n ∧ n ≠ goroutineCount W S "M" ∧ ¬ CoveredOnce fuel W H S n := by
  rintro ⟨fuel, W, H, S, n, hfx, hfy, _, _, hS, _, _, hn, _, hnot⟩
  exact hnot (coveredOnce_any_count fuel W H S n hS hn hfx hfy)

/-- C10 (amended): for every number of workers `n ≥ 1`, equal to `ceil(W/S)` or not, the
workers' squares with the stride `n * S` cover every pixel of the image exactly once. -/
theorem stride_covers_for_every_count (fuel : Nat) (W H S n : Int)
    (hS : 0 < S) (hn : 1 ≤ n) (hfx : W ≤ fuel) (hfy : H ≤ fuel) :
    CoveredOnce fuel W H S n :=
  coveredOnce_any_count fuel W H S n hS hn hfx hfy

/-- Witness of C10 (amended): three workers on an image that is two squares wide. -/
theorem stride_covers_for_every_count_witness : CoveredOnce 4 4 2 2 3 :=
  stride_covers_for_every_count 4 4 2 2 3 (by decide) (by decide) (by decide) (by decide)

/-! ### Validation -/

/-- C7: `commandLineErrorCheck` ends the run with a fatal diagnostic exactly when the square
size is non-positive or exceeds a dimension, or the mode is neither `"S"` nor `"M"`, and
returns normally otherwise; `main` runs it first and stops with its diagnostic, so that no
square is processed on an invalid input, whatever the buffer holds. -/
theorem commandLineErrorCheck_rejects_iff (W H S : Int) (mode : String) :
    ((∃ msg, commandLineErrorCheck W H S mode = .error (.fatal msg)) ↔
      (S ≤ 0 ∨ S > W ∨ S > H ∨ (mode ≠ "S" ∧ mode ≠ "M"))) ∧
    (¬ (S ≤ 0 ∨ S > W ∨ S > H ∨ (mode ≠ "S" ∧ mode ≠ "M")) →
      commandLineErrorCheck W H S mode = .ok ()) ∧
    (∀ (fuel : Nat) (img : Image) (e : Err),
      commandLineErrorCheck img.w img.h S mode = .error e → main fuel img S mode = .error e) ∧
    (∀ (fuel : Nat) (img : Image), (S ≤ 0 ∨ S > img.w ∨ S > img.h) →
      main fuel img S mode = .error (.fatal
        "Out of bounds or non-positive square size. Please change the size of the square")) := by
  refine ⟨?_, ?_, ?_, ?_⟩
  · unfold commandLineErrorCheck
    constructor
    · rintro ⟨msg, h⟩
      by_contra hc
      simp only [not_or, not_and_or, not_not] at hc
      obtain ⟨h1, h2, h3, h4⟩ := hc
      rw [if_neg (by omega), if_neg (by tauto)] at h
      cases h
    · intro h
      by_cases hsz : S > W ∨ S > H ∨ S ≤ 0
      · exact ⟨_, if_pos hsz⟩
      · rw [if_neg hsz]
        have hm : mode ≠ "M" ∧ mode ≠ "S" := by
          rcases h with h | h | h | h
          · exact absurd (Or.inr (Or.inr h)) hsz
          · exact absurd (Or.inl h) hsz
          · exact absurd (Or.inr (Or.inl h)) hsz
          · exact ⟨h.2, h.1⟩
        exact ⟨_, if_pos hm⟩
  · intro hc
    simp only [not_or, not_and_or, not_not] at hc
    obtain ⟨h1, h2, h3, h4⟩ := hc
    unfold commandLineErrorCheck
    rw [if_neg (by omega), if_neg (by tauto)]
  · intro fuel img e h
    unfold main
    simp only [h]
  · intro fuel img h
    have hc : commandLineErrorCheck img.w img.h S mode = .error (.fatal
        "Out of bounds or non-positive square size. Please change the size of the square") := by
      unfold commandLineErrorCheck
      rw [if_pos (by omega)]
    unfold main
    simp only [hc]

/-! ### Non-empty regions -/

theorem area_square_ne_zero (S : Int) (hmult : ¬ (65536 : Int) ∣ S) : area 0 0 S S ≠ 0 := by
  intro h
  apply hmult
  unfold area at h
  have h1 : 0 ≤ (S - 0) * (S - 0) % 4294967296 := Int.emod_nonneg _ (by decide)
  have h2 : (S - 0) * (S - 0) % 4294967296 = 0 := by omega
  have h3 : (4294967296 : Int) ∣ S * S := by
    have := Int.dvd_of_emod_eq_zero h2
    simpa using this
  have h4 : (65536 : Int) ^ 2 ∣ S ^ 2 := by
    have e1 : (65536 : Int) ^ 2 = 4294967296 := by norm_num
    rw [e1, pow_two]
    exact h3
  exact (Int.pow_dvd_pow_iff (by decide)).mp h4

/-- The pixel count is a `uint32`: for a square of side 65536, which no decoded image can
hold (`maxDimension`), it is `uint32(2^32) = 0` and `averageColor` ends with a division by
zero. The bound on the dimensions in `tiler_regions_non_empty` is therefore needed. -/
theorem area_zero_beyond_maxDimension :
    maxDimension < 65536 ∧
    area 0 0 (0 + 65536) (0 + 65536) = 0 ∧
    averageColor 0 0 (0 + 65536) (0 + 65536) (uniformImage 65536 65536 ⟨255, 255, 255, 255⟩)
      = .error .divideByZero := by
  have ha : area 0 0 (0 + 65536) (0 + 65536) = 0 := by decide
  exact ⟨by decide, ha, averageColor_zero_area _ _ _ _ _ ha⟩

theorem regionsNonEmpty_of_not_multiple (fuel : Nat) (W H S : Int) (mode : String)
    (hmult : ¬ (65536 : Int) ∣ S) : RegionsNonEmpty fuel W H S mode := by
  intro i x y _
  have ha : area x y (x + S) (y + S) ≠ 0 := by
    rw [area_square]
    exact area_square_ne_zero S hmult
  exact ⟨ha, fun res => ⟨_, averageColor_eq res x y (x + S) (y + S) ha⟩⟩

/-! ### Squares on the grid of multiples of the square size -/

theorem onGrid_disjoint (S a b a' b' : Int) (hS : 0 < S) (hne : (a * S, b * S) ≠ (a' * S, b' * S)) :
    SquaresDisjoint S (a * S, b * S) (a' * S, b' * S) := by
  rintro px py ⟨⟨h1, h2, h3, h4⟩, ⟨h1', h2', h3', h4'⟩⟩
  apply hne
  have ea := square_unique S a px hS h1 h2
  have ea' := square_unique S a' px hS h1' h2'
  have eb := square_unique S b py hS h3 h4
  have eb' := square_unique S b' py hS h3' h4'
  rw [ea, ea', eb, eb']

theorem pairwise_disjoint_of_onGrid (S : Int) (l : List (Int × Int)) (hS : 0 < S)
    (hl : ∀ p ∈ l, ∃ a b : Int, p = (a * S, b * S)) (hnd : l.Nodup) :
    l.Pairwise (SquaresDisjoint S) := by
  refine List.Pairwise.imp_of_mem ?_ hnd
  intro p q hp hq hne
  obtain ⟨a, b, rfl⟩ := hl p hp
  obtain ⟨a', b', rfl⟩ := hl q hq
  exact onGrid_disjoint S a b a' b' hS hne

theorem worker_onGrid (fuel : Nat) (W H S n i : Int) (hS : 0 < S) (hn : 1 ≤ n) (hi : 0 ≤ i)
    (hfx : W ≤ fuel) (hfy : H ≤ fuel) :
    ∀ p ∈ grid (loopIndices fuel (i * S) W (n * S)) (loopIndices fuel 0 H S),
      ∃ a b : Int, p = (a * S, b * S) := by
  rintro ⟨x, y⟩ hp
  have hinc : 0 < n * S := mul_pos (by omega) hS
  have hi' : 0 ≤ i * S := mul_nonneg hi (le_of_lt hS)
  rw [mem_grid, mem_loopIndices _ _ _ _ _ hinc (by omega),
    mem_loopIndices _ _ _ _ _ hS (by omega)] at hp
  obtain ⟨⟨k, hk, _⟩, ⟨j, hj, _⟩⟩ := hp
  exact ⟨i + k * n, j, by rw [hk, hj]; congr 1 <;> ring⟩

theorem worker_disjoint (fuel : Nat) (W H S n i : Int) (hS : 0 < S) (hn : 1 ≤ n) (hi : 0 ≤ i)
    (hfx : W ≤ fuel) (hfy : H ≤ fuel) :
    (grid (loopIndices fuel (i * S) W (n * S)) (loopIndices fuel 0 H S)).Pairwise
      (SquaresDisjoint S) :=
  pairwise_disjoint_of_onGrid S _ hS (worker_onGrid fuel W H S n i hS hn hi hfx hfy)
    (nodup_grid _ _ (nodup_loopIndices _ _ _ _ (mul_pos (by omega) hS))
      (nodup_loopIndices _ _ _ _ hS))

theorem floorMean_congr (f g : Int → Int → Nat) (x0 y0 x1 y1 : Int)
    (h : ∀ x y, x0 ≤ x → x < x1 → y0 ≤ y → y < y1 → f x y = g x y) :
    floorMean f x0 y0 x1 y1 = floorMean g x0 y0 x1 y1 := by
  unfold floorMean
  rw [regionSum_congr f g x0 y0 x1 y1 h]

/-- The colour of a square that lies inside the image and has a side of at most 256: the floor
means of the stored channels, and alpha 255. -/
theorem squareColor_mean (img : Image) (S x y : Int) (hS : 0 < S) (hS256 : S ≤ 256)
    (hin : 0 ≤ x ∧ 0 ≤ y ∧ x + S ≤ img.w ∧ y + S ≤ img.h) :
    (squareColor S x y img).R.val = floorMean (fun px py => (img.pix px py).R.val) x y (x + S) (y + S) ∧
    (squareColor S x y img).G.val = floorMean (fun px py => (img.pix px py).G.val) x y (x + S) (y + S) ∧
    (squareColor S x y img).B.val = floorMean (fun px py => (img.pix px py).B.val) x y (x + S) (y + S) ∧
    (squareColor S x y img).A = 255 := by
  have hcount : (x + S - x) * (y + S - y) ≤ 65537 := by
    have e : (x + S - x) * (y + S - y) = S * S := by ring
    rw [e]; nlinarith
  have hat : ∀ px py, x ≤ px → px < x + S → y ≤ py → py < y + S →
      img.At px py = img.pix px py := by
    intro px py h1 h2 h3 h4
    exact At_eq_pix img px py ⟨by omega, by omega, by omega, by omega⟩
  have mR := (channel_mean (fun px py => (img.At px py).R) x y (x + S) (y + S) (by omega)
    (by omega) hcount).2
  have mG := (channel_mean (fun px py => (img.At px py).G) x y (x + S) (y + S) (by omega)
    (by omega) hcount).2
  have mB := (channel_mean (fun px py => (img.At px py).B) x y (x + S) (y + S) (by omega)
    (by omega) hcount).2
  refine ⟨?_, ?_, ?_, rfl⟩
  · rw [← floorMean_congr (fun px py => (img.At px py).R.val) (fun px py => (img.pix px py).R.val)
      x y (x + S) (y + S) (fun px py h1 h2 h3 h4 => by simp only [hat px py h1 h2 h3 h4])]
    exact mR
  · rw [← floorMean_congr (fun px py => (img.At px py).G.val) (fun px py => (img.pix px py).G.val)
      x y (x + S) (y + S) (fun px py h1 h2 h3 h4 => by simp only [hat px py h1 h2 h3 h4])]
    exact mG
  · rw [← floorMean_congr (fun px py => (img.At px py).B.val) (fun px py => (img.pix px py).B.val)
      x y (x + S) (y + S) (fun px py h1 h2 h3 h4 => by simp only [hat px py h1 h2 h3 h4])]
    exact mB

theorem block_inside (S W px : Int) (hS : 0 < S) (hW : S ∣ W) (hpx : px < W) :
    S * (px / S) + S ≤ W := by
  obtain ⟨c, rfl⟩ := hW
  have h1 : px / S < c := Int.ediv_lt_of_lt_mul hS (by rw [Int.mul_comm] at hpx; exact hpx)
  have h2 : px / S + 1 ≤ c := by omega
  nlinarith

theorem small_square_area_ne_zero (S : Int) (hS : 0 < S) (hS' : S < 65536) :
    area 0 0 S S ≠ 0 := by
  apply area_square_ne_zero
  intro h
  have := Int.le_of_dvd hS h
  omega

theorem single_squares_mem (fuel : Nat) (W H S px py : Int) (hS : 0 < S)
    (hfx : W ≤ fuel) (hfy : H ≤ fuel) (hpx0 : 0 ≤ px) (hpx : px < W) (hpy0 : 0 ≤ py)
    (hpy : py < H) :
    (S * (px / S), S * (py / S)) ∈ grid (loopIndices fuel 0 W S) (loopIndices fuel 0 H S) ∧
      inSquare S (S * (px / S)) (S * (py / S)) px py := by
  obtain ⟨hx1, hx2⟩ := square_of_pixel S px hS
  obtain ⟨hy1, hy2⟩ := square_of_pixel S py hS
  have ha0 : 0 ≤ px / S := Int.ediv_nonneg hpx0 (le_of_lt hS)
  have hb0 : 0 ≤ py / S := Int.ediv_nonneg hpy0 (le_of_lt hS)
  rw [Int.mul_comm S (px / S), Int.mul_comm S (py / S)]
  refine ⟨?_, hx1, hx2, hy1, hy2⟩
  rw [mem_grid, mem_loopIndices _ _ _ _ _ hS (by omega), mem_loopIndices _ _ _ _ _ hS (by omega)]
  refine ⟨⟨(px / S).toNat, ?_, by omega⟩, ⟨(py / S).toNat, ?_, by omega⟩⟩
  · rw [Int.toNat_of_nonneg ha0]; ring
  · rw [Int.toNat_of_nonneg hb0]; ring

theorem single_squares_disjoint (fuel : Nat) (W H S : Int) (hS : 0 < S)
    (hfx : W ≤ fuel) (hfy : H ≤ fuel) :
    (grid (loopIndices fuel 0 W S) (loopIndices fuel 0 H S)).Pairwise (SquaresDisjoint S) := by
  have h := worker_disjoint fuel W H S 1 0 hS (le_refl 1) (le_refl 0) hfx hfy
  simp only [zero_mul, one_mul] at h
  exact h

/-- C1: when the square size `S`, between 1 and 256, divides the width and the height, the
Single-mode pass `processImage(0, 0, W, H, S, S, buf)` returns a buffer of the same size in
which every pixel has red, green and blue equal to the floor mean of that channel over the
`S*S` input pixels of its own block, which starts at `(S*floor(px/S), S*floor(py/S))`, and
alpha 255. -/
theorem single_pass_block_means (fuel : Nat) (img : Image) (S : Int)
    (hS1 : 1 ≤ S) (hS256 : S ≤ 256) (hW : S ∣ img.w) (hH : S ∣ img.h)
    (hfx : img.w ≤ fuel) (hfy : img.h ≤ fuel) :
    ∃ out : Image, processImage fuel 0 0 img.w img.h S S img = .ok out ∧
      out.w = img.w ∧ out.h = img.h ∧
      ∀ px py, 0 ≤ px → px < img.w → 0 ≤ py → py < img.h →
        (out.At px py).R.val = floorMean (fun x y => (img.pix x y).R.val)
          (S * (px / S)) (S * (py / S)) (S * (px / S) + S) (S * (py / S) + S) ∧
        (out.At px py).G.val = floorMean (fun x y => (img.pix x y).G.val)
          (S * (px / S)) (S * (py / S)) (S * (px / S) + S) (S * (py / S) + S) ∧
        (out.At px py).B.val = floorMean (fun x y => (img.pix x y).B.val)
          (S * (px / S)) (S * (py / S)) (S * (px / S) + S) (S * (py / S) + S) ∧
        (out.At px py).A = 255 := by
  have hS : 0 < S := by omega
  have ha : area 0 0 S S ≠ 0 := small_square_area_ne_zero S hS (by omega)
  rw [processImage_eq_runSquares fuel 0 0 img.w img.h S S img hS hS (by omega) (by omega)]
  obtain ⟨out, hrun, hw, hh, hpix⟩ := runSquares_spec S _ img hS ha
    (single_squares_disjoint fuel img.w img.h S hS hfx hfy)
  refine ⟨out, hrun, hw, hh, ?_⟩
  intro px py hpx0 hpx hpy0 hpy
  obtain ⟨hmem, hsq⟩ := single_squares_mem fuel img.w img.h S px py hS hfx hfy hpx0 hpx hpy0 hpy
  have hb : img.inBounds px py := ⟨hpx0, hpx, hpy0, hpy⟩
  have hb' : out.inBounds px py := by
    unfold Image.inBounds
    rw [hw, hh]
    exact hb
  rw [At_eq_pix out px py hb', (hpix px py).1 _ hmem hsq hb]
  have hx0 : 0 ≤ S * (px / S) := mul_nonneg (le_of_lt hS) (Int.ediv_nonneg hpx0 (le_of_lt hS))
  have hy0 : 0 ≤ S * (py / S) := mul_nonneg (le_of_lt hS) (Int.ediv_nonneg hpy0 (le_of_lt hS))
  exact squareColor_mean img S _ _ hS hS256
    ⟨hx0, hy0, block_inside S img.w px hS hW hpx, block_inside S img.h py hS hH hpy⟩

/-- Witness of C1: a 4×4 image and squares of side 2. -/
theorem single_pass_block_means_witness :
    ∃ out : Image,
      processImage 4 0 0 (uniformImage 4 4 ⟨10, 20, 30, 255⟩).w (uniformImage 4 4 ⟨10, 20, 30, 255⟩).h
        2 2 (uniformImage 4 4 ⟨10, 20, 30, 255⟩) = .ok out ∧
      out.w = (uniformImage 4 4 ⟨10, 20, 30, 255⟩).w ∧
      out.h = (uniformImage 4 4 ⟨10, 20, 30, 255⟩).h ∧
      ∀ px py, 0 ≤ px → px < (uniformImage 4 4 ⟨10, 20, 30, 255⟩).w → 0 ≤ py →
        py < (uniformImage 4 4 ⟨10, 20, 30, 255⟩).h →
        (out.At px py).R.val = floorMean (fun x y => ((uniformImage 4 4 ⟨10, 20, 30, 255⟩).pix x y).R.val)
          (2 * (px / 2)) (2 * (py / 2)) (2 * (px / 2) + 2) (2 * (py / 2) + 2) ∧
        (out.At px py).G.val = floorMean (fun x y => ((uniformImage 4 4 ⟨10, 20, 30, 255⟩).pix x y).G.val)
          (2 * (px / 2)) (2 * (py / 2)) (2 * (px / 2) + 2) (2 * (py / 2) + 2) ∧
        (out.At px py).B.val = floorMean (fun x y => ((uniformImage 4 4 ⟨10, 20, 30, 255⟩).pix x y).B.val)
          (2 * (px / 2)) (2 * (py / 2)) (2 * (px / 2) + 2) (2 * (py / 2) + 2) ∧
        (out.At px py).A = 255 :=
  single_pass_block_means 4 (uniformImage 4 4 ⟨10, 20, 30, 255⟩) 2 (by decide) (by decide)
    (by decide) (by decide) (by decide) (by decide)

/-! ### Several workers -/

theorem iterate_congr {α σ : Type} (f g : α → σ → Except Err σ) (l : List α) (s : σ)
    (h : ∀ a ∈ l, ∀ s, f a s = g a s) : iterate f l s = iterate g l s := by
  induction l generalizing s with
  | nil => rfl
  | cons a l ih =>
    simp only [iterate]
    rw [h a (List.mem_cons_self a l) s]
    cases g a s with
    | error e => rfl
    | ok s' => exact ih s' (fun b hb => h b (List.mem_cons_of_mem a hb))

theorem iterate_collect {α β : Type} (L : α → List β) (l : List α) (acc : List β) :
    iterate (fun i acc => Except.ok (acc ++ L i)) l acc
      = (.ok (acc ++ l.flatMap L) : Except Err (List β)) := by
  induction l generalizing acc with
  | nil => simp [iterate]
  | cons a l ih =>
    simp only [iterate]
    rw [ih]
    simp

theorem iterate_runSquares (S : Int) (L : Int → List (Int × Int)) (l : List Int) (res : Image) :
    iterate (fun i res => runSquares S (L i) res) l res = runSquares S (l.flatMap L) res := by
  induction l generalizing res with
  | nil => rfl
  | cons a l ih =>
    simp only [iterate, List.flatMap_cons]
    unfold runSquares at ih ⊢
    rw [iterate_append]
    cases iterate (fun p res => squareStep S p.1 p.2 res) (L a) res with
    | error e => rfl
    | ok s' => exact ih s'

/-- The squares of worker `i` of `n`. -/
theorem workers_mem (fuel : Nat) (W H S n : Int) (hS : 0 < S) (hn : 1 ≤ n)
    (hfx : W ≤ fuel) (hfy : H ≤ fuel) (hfn : n ≤ fuel) (x y : Int) :
    (x, y) ∈ (loopIndices fuel 0 n 1).flatMap
        (fun i => grid (loopIndices fuel (i * S) W (n * S)) (loopIndices fuel 0 H S)) ↔
      ∃ i : Int, 0 ≤ i ∧ i < n ∧
        (∃ k : Nat, x = i * S + k * (n * S) ∧ x < W) ∧ (∃ j : Nat, y = 0 + j * S ∧ y < H) := by
  have hinc : 0 < n * S := mul_pos (by omega) hS
  rw [List.mem_flatMap]
  constructor
  · rintro ⟨i, hi, hp⟩
    rw [mem_loopIndices _ _ _ _ _ (by decide) (by omega)] at hi
    obtain ⟨k0, hk0, hin⟩ := hi
    have hi0 : 0 ≤ i := by omega
    have hi' : 0 ≤ i * S := mul_nonneg hi0 (le_of_lt hS)
    rw [mem_grid, mem_loopIndices _ _ _ _ _ hinc (by omega),
      mem_loopIndices _ _ _ _ _ hS (by omega)] at hp
    exact ⟨i, hi0, hin, hp⟩
  · rintro ⟨i, hi0, hin, hp⟩
    have hi' : 0 ≤ i * S := mul_nonneg hi0 (le_of_lt hS)
    refine ⟨i, ?_, ?_⟩
    · rw [mem_loopIndices _ _ _ _ _ (by decide) (by omega)]
      exact ⟨i.toNat, by omega, hin⟩
    · rw [mem_grid, mem_loopIndices _ _ _ _ _ hinc (by omega),
        mem_loopIndices _ _ _ _ _ hS (by omega)]
      exact hp

theorem workers_nodup (fuel : Nat) (W H S n : Int) (hS : 0 < S) (hn : 1 ≤ n)
    (hfx : W ≤ fuel) (hfn : n ≤ fuel) :
    ((loopIndices fuel 0 n 1).flatMap
      (fun i => grid (loopIndices fuel (i * S) W (n * S)) (loopIndices fuel 0 H S))).Nodup := by
  have hinc : 0 < n * S := mul_pos (by omega) hS
  rw [List.nodup_flatMap]
  refine ⟨fun i _ => nodup_grid _ _ (nodup_loopIndices _ _ _ _ hinc)
    (nodup_loopIndices _ _ _ _ hS), ?_⟩
  refine List.Pairwise.imp_of_mem ?_ (nodup_loopIndices fuel 0 n 1 (by decide))
  intro a b ha hb hab
  rw [mem_loopIndices _ _ _ _ _ (by decide) (by omega)] at ha hb
  obtain ⟨ka, hka, han⟩ := ha
  obtain ⟨kb, hkb, hbn⟩ := hb
  have ha0 : 0 ≤ a := by omega
  have hb0 : 0 ≤ b := by omega
  have ha' : 0 ≤ a * S := mul_nonneg ha0 (le_of_lt hS)
  have hb' : 0 ≤ b * S := mul_nonneg hb0 (le_of_lt hS)
  rintro ⟨x, y⟩ h1 h2
  simp only at h1 h2
  rw [mem_grid, mem_loopIndices _ _ _ _ _ hinc (by omega)] at h1 h2
  obtain ⟨⟨k, hk, _⟩, _⟩ := h1
  obtain ⟨⟨k', hk', _⟩, _⟩ := h2
  apply hab
  have e : (a + k * n) * S = (b + k' * n) * S := by
    have e1 : (a + k * n) * S = x := by rw [hk]; ring
    have e2 : (b + k' * n) * S = x := by rw [hk']; ring
    rw [e1, e2]
  have e' : a + k * n = b + k' * n := Int.eq_of_mul_eq_mul_right (by omega) e
  have m1 : (a + k * n) % n = a := by
    rw [Int.add_mul_emod_self, Int.emod_eq_of_lt ha0 han]
  have m2 : (b + k' * n) % n = b := by
    rw [Int.add_mul_emod_self, Int.emod_eq_of_lt hb0 hbn]
  rw [← m1, ← m2, e']

theorem workers_perm_single (fuel : Nat) (W H S n : Int) (hS : 0 < S) (hn : 1 ≤ n)
    (hfx : W ≤ fuel) (hfy : H ≤ fuel) (hfn : n ≤ fuel) :
    ((loopIndices fuel 0 n 1).flatMap
      (fun i => grid (loopIndices fuel (i * S) W (n * S)) (loopIndices fuel 0 H S))).Perm
      (grid (loopIndices fuel 0 W S) (loopIndices fuel 0 H S)) := by
  rw [List.perm_ext_iff_of_nodup (workers_nodup fuel W H S n hS hn hfx hfn)
    (nodup_grid _ _ (nodup_loopIndices _ _ _ _ hS) (nodup_loopIndices _ _ _ _ hS))]
  rintro ⟨x, y⟩
  rw [workers_mem fuel W H S n hS hn hfx hfy hfn, mem_grid,
    mem_loopIndices _ _ _ _ _ hS (by omega), mem_loopIndices _ _ _ _ _ hS (by omega)]
  constructor
  · rintro ⟨i, hi0, hin, ⟨k, hk, hx⟩, hy⟩
    refine ⟨⟨(i + k * n).toNat, ?_, hx⟩, hy⟩
    have h0 : 0 ≤ i + k * n := add_nonneg hi0 (mul_nonneg (by omega) (by omega))
    rw [Int.toNat_of_nonneg h0, hk]
    ring
  · rintro ⟨⟨m, hm, hx⟩, hy⟩
    have hcn : n ≠ 0 := by omega
    have hm1 := Int.emod_add_ediv (m : Int) n
    have hm2 := Int.emod_nonneg (m : Int) hcn
    have hm3 := Int.emod_lt_of_pos (m : Int) (show 0 < n by omega)
    have hq0 : 0 ≤ (m : Int) / n := Int.ediv_nonneg (by omega) (by omega)
    refine ⟨(m : Int) % n, hm2, hm3, ⟨((m : Int) / n).toNat, ?_, hx⟩, hy⟩
    rw [Int.toNat_of_nonneg hq0, hm]
    have : (m : Int) * S = ((m : Int) % n + n * ((m : Int) / n)) * S := by rw [hm1]
    rw [zero_add, this]
    ring

theorem multiVisited_eq (fuel : Nat) (W H S n : Int) (hS : 0 < S) (hn : 1 ≤ n)
    (hfx : W ≤ fuel) (hfy : H ≤ fuel) (hfn : n ≤ fuel) :
    multiVisited fuel W H S n = .ok ((loopIndices fuel 0 n 1).flatMap
      (fun i => grid (loopIndices fuel (i * S) W (n * S)) (loopIndices fuel 0 H S))) := by
  have hinc : 0 < n * S := mul_pos (by omega) hS
  unfold multiVisited
  rw [forLoop_eq_iterate fuel 0 n 1 _ _ (by decide) (by omega)]
  rw [iterate_congr _ (fun i acc => Except.ok (acc ++
    grid (loopIndices fuel (i * S) W (n * S)) (loopIndices fuel 0 H S)))]
  · simpa using iterate_collect
      (fun i => grid (loopIndices fuel (i * S) W (n * S)) (loopIndices fuel 0 H S))
      (loopIndices fuel 0 n 1) []
  · intro i hi acc
    have hi0 := loopIndices_ge fuel 0 n 1 i (by decide) hi
    have hi' : 0 ≤ i * S := mul_nonneg hi0 (le_of_lt hS)
    simp only [visitedSquares_eq fuel (i * S) 0 W H S (n * S) hS hinc (by omega) (by omega)]

theorem workers_run_eq (fuel : Nat) (W H S n : Int) (res : Image) (hS : 0 < S) (hn : 1 ≤ n)
    (hfx : W ≤ fuel) (hfy : H ≤ fuel) (hfn : n ≤ fuel) :
    forLoop fuel 0 n 1 (fun i res => processImage fuel (i * S) 0 W H S (n * S) res) res =
      runSquares S ((loopIndices fuel 0 n 1).flatMap
        (fun i => grid (loopIndices fuel (i * S) W (n * S)) (loopIndices fuel 0 H S))) res := by
  have hinc : 0 < n * S := mul_pos (by omega) hS
  rw [forLoop_eq_iterate fuel 0 n 1 _ _ (by decide) (by omega)]
  rw [iterate_congr _ (fun i res => runSquares S
    (grid (loopIndices fuel (i * S) W (n * S)) (loopIndices fuel 0 H S)) res)]
  · exact iterate_runSquares S _ _ res
  · intro i hi res
    have hi0 := loopIndices_ge fuel 0 n 1 i (by decide) hi
    have hi' : 0 ≤ i * S := mul_nonneg hi0 (le_of_lt hS)
    exact processImage_eq_runSquares fuel (i * S) 0 W H S (n * S) res hS hinc (by omega) (by omega)

theorem goroutineCount_le (W S : Int) (mode : String) (hS : 0 < S) (hW : 1 ≤ W) :
    goroutineCount W S mode ≤ W := by
  unfold goroutineCount
  split
  · have h := (goroutineCount_multi W S hS).1
    have e : goroutineCount W S "M" = (W + S - 1) / S := by simp [goroutineCount]
    rw [e] at h
    nlinarith
  · exact hW

theorem main_eq_runSquares (fuel : Nat) (img : Image) (S : Int) (mode : String)
    (hS : 0 < S) (hSW : S ≤ img.w) (hSH : S ≤ img.h) (hmode : mode = "S" ∨ mode = "M")
    (hfx : img.w ≤ fuel) (hfy : img.h ≤ fuel) :
    main fuel img S mode =
      runSquares S ((loopIndices fuel 0 (goroutineCount img.w S mode) 1).flatMap
        (fun i => grid (loopIndices fuel (i * S) img.w (goroutineCount img.w S mode * S))
          (loopIndices fuel 0 img.h S))) ⟨img.w, img.h, fun x y => img.At x y⟩ := by
  have hc : commandLineErrorCheck img.w img.h S mode = .ok () := by
    unfold commandLineErrorCheck
    rw [if_neg (by omega), if_neg (by rcases hmode with h | h <;> simp [h])]
  have hn := goroutineCount_pos img.w S mode hS (by omega)
  have hle := goroutineCount_le img.w S mode hS (by omega)
  unfold main
  simp only [hc]
  exact workers_run_eq fuel img.w img.h S _ _ hS hn hfx hfy (by omega)

/-- C4: for a validated square size, the square steps of the `ceil(W/S)` workers of Multi mode,
executed in any sequential order, give the buffer (or the failure) that the single worker of
Single mode gives on the same input; so do the two runs of `main`; and for a square size below
65536 that outcome is a buffer. -/
theorem multi_equals_single (fuel : Nat) (img : Image) (S : Int)
    (hS : 0 < S) (hSW : S ≤ img.w) (hSH : S ≤ img.h) (hfx : img.w ≤ fuel) (hfy : img.h ≤ fuel) :
    ∃ squares : List (Int × Int),
      multiVisited fuel img.w img.h S (goroutineCount img.w S "M") = .ok squares ∧
      (∀ order : List (Int × Int), order.Perm squares →
        runSquares S order img = processImage fuel 0 0 img.w img.h S S img) ∧
      main fuel img S "M" = main fuel img S "S" ∧
      (S < 65536 → ∃ out : Image, processImage fuel 0 0 img.w img.h S S img = .ok out) := by
  have hn := goroutineCount_pos img.w S "M" hS (by omega)
  have hle := goroutineCount_le img.w S "M" hS (by omega)
  have hn1 := goroutineCount_pos img.w S "S" hS (by omega)
  have hle1 := goroutineCount_le img.w S "S" hS (by omega)
  have hd := single_squares_disjoint fuel img.w img.h S hS hfx hfy
  have hp := workers_perm_single fuel img.w img.h S _ hS hn hfx hfy (by omega)
  have hp1 := workers_perm_single fuel img.w img.h S _ hS hn1 hfx hfy (by omega)
  refine ⟨_, multiVisited_eq fuel img.w img.h S _ hS hn hfx hfy (by omega), ?_, ?_, ?_⟩
  · intro order ho
    rw [processImage_eq_runSquares fuel 0 0 img.w img.h S S img hS hS (by omega) (by omega)]
    exact (runSquares_perm S _ _ img hS hd (hp.symm.trans ho.symm)).symm
  · rw [main_eq_runSquares fuel img S "M" hS hSW hSH (Or.inr rfl) hfx hfy,
      main_eq_runSquares fuel img S "S" hS hSW hSH (Or.inl rfl) hfx hfy]
    rw [← runSquares_perm S _ _ _ hS hd hp.symm, ← runSquares_perm S _ _ _ hS hd hp1.symm]
  · intro h
    rw [processImage_eq_runSquares fuel 0 0 img.w img.h S S img hS hS (by omega) (by omega)]
    obtain ⟨out, hrun, _⟩ := runSquares_spec S _ img hS (small_square_area_ne_zero S hS h) hd
    exact ⟨out, hrun⟩

/-- Witness of C4: a 5×4 image and squares of side 2 (three workers in Multi mode). -/
theorem multi_equals_single_witness :
    ∃ squares : List (Int × Int),
      multiVisited 5 (uniformImage 5 4 ⟨10, 20, 30, 255⟩).w (uniformImage 5 4 ⟨10, 20, 30, 255⟩).h 2
        (goroutineCount (uniformImage 5 4 ⟨10, 20, 30, 255⟩).w 2 "M") = .ok squares ∧
      (∀ order : List (Int × Int), order.Perm squares →
        runSquares 2 order (uniformImage 5 4 ⟨10, 20, 30, 255⟩) =
          processImage 5 0 0 (uniformImage 5 4 ⟨10, 20, 30, 255⟩).w
            (uniformImage 5 4 ⟨10, 20, 30, 255⟩).h 2 2 (uniformImage 5 4 ⟨10, 20, 30, 255⟩)) ∧
      main 5 (uniformImage 5 4 ⟨10, 20, 30, 255⟩) 2 "M"
        = main 5 (uniformImage 5 4 ⟨10, 20, 30, 255⟩) 2 "S" ∧
      ((2 : Int) < 65536 → ∃ out : Image,
        processImage 5 0 0 (uniformImage 5 4 ⟨10, 20, 30, 255⟩).w
          (uniformImage 5 4 ⟨10, 20, 30, 255⟩).h 2 2 (uniformImage 5 4 ⟨10, 20, 30, 255⟩) = .ok out) :=
  multi_equals_single 5 (uniformImage 5 4 ⟨10, 20, 30, 255⟩) 2 (by decide) (by decide)
    (by decide) (by decide) (by decide)

/-! ### Squares that overflow the image -/

/-- C2 (the code at the failing input): on a white 3×2 image with squares of side 2 the Tiler
visits the square start `(2, 0)` and hands `averageColor` the region `(2,0)-(4,2)`, which
leaves the image; the two pixels outside read as zero and the sum is divided by 4, so the
square is painted `(127, 127, 127)`, whereas the floor mean over the clamped region
`(2,0)-(3,2)` is 255. -/
theorem edge_square_not_clamped :
    commandLineErrorCheck 3 2 2 "S" = .ok () ∧
    visitedSquares 3 0 0 3 2 2 2 = .ok [(0, 0), (2, 0)] ∧
    averageColor 2 0 (2 + 2) (0 + 2) (uniformImage 3 2 ⟨255, 255, 255, 255⟩)
      = .ok ⟨127, 127, 127, 255⟩ ∧
    (processImage 3 0 0 3 2 2 2 (uniformImage 3 2 ⟨255, 255, 255, 255⟩)).map
      (fun out => (out.At 1 0, out.At 2 0, out.At 2 1))
      = .ok (⟨255, 255, 255, 255⟩, ⟨127, 127, 127, 255⟩, ⟨127, 127, 127, 255⟩) ∧
    floorMean (fun x y => ((uniformImage 3 2 ⟨255, 255, 255, 255⟩).pix x y).R.val)
      2 0 (min (2 + 2) 3) (min (0 + 2) 2) = 255 := by
  decide

/-- C9 (the code at the failing input): on a white 3×2 image with squares of side 2 the first
pass paints the column `x = 2` with `(127, 127, 127)` and a second pass on that output paints
it with `(63, 63, 63)`: the second pass changes the buffer. -/
theorem second_pass_changes_edge :
    (processImage 3 0 0 3 2 2 2 (uniformImage 3 2 ⟨255, 255, 255, 255⟩)).map
      (fun out => out.At 2 0) = .ok ⟨127, 127, 127, 255⟩ ∧
    ((processImage 3 0 0 3 2 2 2 (uniformImage 3 2 ⟨255, 255, 255, 255⟩)).bind
      (fun out => processImage 3 0 0 3 2 2 2 out)).map
      (fun out => out.At 2 0) = .ok ⟨63, 63, 63, 255⟩ := by
  decide

/-! ### No division by zero -/

/-- C8: for an image the program can open (width and height at most `maxDimension`), a square
size accepted by the validation (`0 < S ≤ W`, `0 < S ≤ H`) and either mode, every worker's
loops end, every region the Tiler hands to `averageColor` has a non-zero pixel count
`uint32((x1-x0)*(y1-y0))` and `averageColor` returns a colour for it, and the run of `main`
returns a buffer: none of the divisions by `area` divides by zero. -/
theorem tiler_regions_non_empty (fuel : Nat) (img : Image) (S : Int) (mode : String)
    (hS : 0 < S) (hSW : S ≤ img.w) (hSH : S ≤ img.h)
    (hW : img.w ≤ maxDimension) (hH : img.h ≤ maxDimension)
    (hmode : mode = "S" ∨ mode = "M") (hfx : img.w ≤ fuel) (hfy : img.h ≤ fuel) :
    RegionsNonEmpty fuel img.w img.h S mode ∧
    (∀ i, 0 ≤ i → i < goroutineCount img.w S mode →
      ∃ l, visitedSquares fuel (i * S) 0 img.w img.h S (goroutineCount img.w S mode * S) = .ok l ∧
        l ≠ []) ∧
    (∃ out : Image, main fuel img S mode = .ok out) ∧
    main fuel img S mode ≠ .error .divideByZero := by
  have hS' : S < 65536 := by unfold maxDimension at hW; omega
  have hH' : img.h < 65536 := by unfold maxDimension at hH; omega
  have ha : area 0 0 S S ≠ 0 := small_square_area_ne_zero S hS hS'
  have hn := goroutineCount_pos img.w S mode hS (by omega)
  have hle := goroutineCount_le img.w S mode hS (by omega)
  have hinc : 0 < goroutineCount img.w S mode * S := mul_pos (by omega) hS
  have hmain : ∃ out : Image, main fuel img S mode = .ok out := by
    rw [main_eq_runSquares fuel img S mode hS hSW hSH hmode hfx hfy]
    have hd := single_squares_disjoint fuel img.w img.h S hS hfx hfy
    have hp := workers_perm_single fuel img.w img.h S _ hS hn hfx hfy (by omega)
    have hd' := hp.symm.pairwise hd (fun h => squaresDisjoint_symm S h)
    obtain ⟨out, hrun, _⟩ := runSquares_spec S _ ⟨img.w, img.h, fun x y => img.At x y⟩ hS ha hd'
    exact ⟨out, hrun⟩
  refine ⟨?_, ?_, hmain, ?_⟩
  · intro i x y _
    have hxy : area x y (x + S) (y + S) ≠ 0 := by rw [area_square]; exact ha
    exact ⟨hxy, fun res => ⟨_, averageColor_eq res x y (x + S) (y + S) hxy⟩⟩
  · intro i hi0 hin
    have hi' : 0 ≤ i * S := mul_nonneg hi0 (le_of_lt hS)
    refine ⟨_, visitedSquares_eq fuel (i * S) 0 img.w img.h S _ hS hinc (by omega) (by omega), ?_⟩
    have hlt : i * S < img.w := by
      by_cases hm : mode = "M"
      · subst hm
        have h1 := (goroutineCount_multi img.w S hS).1
        nlinarith
      · have h1 : goroutineCount img.w S mode = 1 := by simp [goroutineCount, hm]
        have h2 : i = 0 := by omega
        subst h2
        omega
    have hmem : (i * S, (0 : Int)) ∈ grid (loopIndices fuel (i * S) img.w
        (goroutineCount img.w S mode * S)) (loopIndices fuel 0 img.h S) := by
      rw [mem_grid, mem_loopIndices _ _ _ _ _ hinc (by omega),
        mem_loopIndices _ _ _ _ _ hS (by omega)]
      exact ⟨⟨0, by simp, hlt⟩, ⟨0, by simp, by omega⟩⟩
    exact List.ne_nil_of_mem hmem
  · obtain ⟨out, h⟩ := hmain
    rw [h]
    intro hc
    cases hc

/-- Witness of C8: a 5×4 image and squares of side 2 in mode `"M"`. -/
theorem tiler_regions_non_empty_witness :
    RegionsNonEmpty 5 (uniformImage 5 4 ⟨10, 20, 30, 255⟩).w (uniformImage 5 4 ⟨10, 20, 30, 255⟩).h
      2 "M" ∧
    (∀ i, 0 ≤ i → i < goroutineCount (uniformImage 5 4 ⟨10, 20, 30, 255⟩).w 2 "M" →
      ∃ l, visitedSquares 5 (i * 2) 0 (uniformImage 5 4 ⟨10, 20, 30, 255⟩).w
          (uniformImage 5 4 ⟨10, 20, 30, 255⟩).h 2
          (goroutineCount (uniformImage 5 4 ⟨10, 20, 30, 255⟩).w 2 "M" * 2) = .ok l ∧ l ≠ []) ∧
    (∃ out : Image, main 5 (uniformImage 5 4 ⟨10, 20, 30, 255⟩) 2 "M" = .ok out) ∧
    main 5 (uniformImage 5 4 ⟨10, 20, 30, 255⟩) 2 "M" ≠ .error .divideByZero :=
  tiler_regions_non_empty 5 (uniformImage 5 4 ⟨10, 20, 30, 255⟩) 2 "M" (by decide) (by decide)
    (by decide) (by decide) (by decide) (Or.inr rfl) (by decide) (by decide)

end Conimg
